import Mathlib

set_option maxHeartbeats 1000000
set_option maxRecDepth 40000

namespace Sudoku

/-! # Shallow embedding of the guided Sudoku solver (src/main.py)

Grids are total functions from positions to cells; the Python code's
in-place mutation becomes explicit state passing, with every loop a fold
over the same index ranges the source iterates. -/

/-- A Sudoku cell: resolved value (or `none`), the given-clue flag, and the
list of candidate numbers (`main.py`, class `Cell`). -/
structure Cell where
  value : Option Nat
  given : Bool
  candidates : List Nat
deriving DecidableEq

abbrev Pos : Type := Fin 9 × Fin 9

abbrev Grid : Type := Pos → Cell

/-- Coordinates in the source are always in `0..8`; `fin9` injects them. -/
def fin9 (n : Nat) : Fin 9 := ⟨n % 9, Nat.mod_lt n (by decide)⟩

/-- The cells of row `r`, in ascending column order. -/
def rowCells (r : Nat) : List Pos := (List.range 9).map fun c => (fin9 r, fin9 c)

/-- The cells of column `c`, in ascending row order. -/
def colCells (c : Nat) : List Pos := (List.range 9).map fun r => (fin9 r, fin9 c)

/-- The cells of the 3x3 block containing `p`, in row-major order
(`br, bc = (r // 3) * 3, (c // 3) * 3` in `is_valid`). -/
def blockCellsOf (p : Pos) : List Pos :=
  (List.range 3).flatMap fun i => (List.range 3).map fun j =>
    (fin9 (p.1.val / 3 * 3 + i), fin9 (p.2.val / 3 * 3 + j))

/-- The cells of block `b` (blocks numbered row-major, as the strategy loops
`for br in range(0, 9, 3): for bc in range(0, 9, 3)` visit them). -/
def blockCells (b : Nat) : List Pos := blockCellsOf (fin9 (b / 3 * 3), fin9 (b % 3 * 3))

/-- All 81 positions in row-major order (the scan order of `find_empty` and
of every `for i in range(9): for j in range(9)` loop). -/
def allPositions : List Pos :=
  (List.range 9).flatMap fun r => (List.range 9).map fun c => (fin9 r, fin9 c)

/-- The numbers `1..9` in ascending order (`range(1, 10)`). -/
def nums1to9 : List Nat := (List.range 9).map fun n => n + 1

/-- `is_valid(cells, num, pos)` from `main.py`: scans the row, the column and
the block of `pos`, comparing each cell's `value or 0` against `num`. -/
def is_valid (g : Grid) (num : Nat) (p : Pos) : Bool :=
  ((rowCells p.1.val).all fun q => ((g q).value.getD 0) != num) &&
  ((colCells p.2.val).all fun q => ((g q).value.getD 0) != num) &&
  ((blockCellsOf p).all fun q => ((g q).value.getD 0) != num)

/-- `find_empty(cells)`: the first position in row-major order whose value is
unset. -/
def find_empty (g : Grid) : Option Pos :=
  allPositions.find? fun p => ((g p).value).isNone

/-- Write field `value` of the cell at `p` (the only field `solve` touches). -/
def setValue (g : Grid) (p : Pos) (v : Option Nat) : Grid :=
  Function.update g p { g p with value := v }

/-- The `for num in range(1, 10)` loop body of `solve`: try each number in
turn; on success of the recursive call return its grid, on failure restore
the cell to unset (`cells[r][c].value = None`) and continue. -/
def tryList (rec : Grid → Bool × Grid) (g : Grid) (rc : Pos) : List Nat → Bool × Grid
  | [] => (false, g)
  | n :: ns =>
    if is_valid g n rc then
      if (rec (setValue g rc (some n))).1 then rec (setValue g rc (some n))
      else tryList rec (setValue (rec (setValue g rc (some n))).2 rc none) rc ns
    else tryList rec g rc ns

/-- `solve(cells)` with explicit fuel; the recursion depth of the Python
function is bounded by the number of empty cells, so 82 units of fuel make
`solveFuel` total on every 9x9 grid. -/
def solveFuel : Nat → Grid → Bool × Grid
  | 0, g => (false, g)
  | f + 1, g =>
    match find_empty g with
    | none => (true, g)
    | some rc => tryList (solveFuel f) g rc nums1to9

/-- `solve(cells) -> bool` (plus the final state of the mutated grid). -/
def solve (g : Grid) : Bool × Grid := solveFuel 82 g

/-! ## Strategies -/

/-- The body of the `SingleCandidateStrategy.apply` cell loop: fill an empty
cell whose candidate list has exactly one member.  The source sets `value`
and `given = False` but does **not** clear the candidate list. -/
def scStep (s : Bool × Grid) (p : Pos) : Bool × Grid :=
  match (s.2 p).value, (s.2 p).candidates with
  | none, [n] => (true, Function.update s.2 p { s.2 p with value := some n, given := false })
  | _, _ => s

/-- `SingleCandidateStrategy.apply`: one row-major pass of `scStep`. -/
def SingleCandidateStrategy.apply (g : Grid) : Bool × Grid :=
  allPositions.foldl scStep (false, g)

/-- One `(unit, n)` step of a hidden-single strategy: collect the unresolved
cells of the unit having `n` among their candidates; if there is exactly one,
fill it with `n`, set `given = False` and clear its candidates. -/
def hsStepAt (s : Bool × Grid) (u : List Pos) (n : Nat) : Bool × Grid :=
  match u.filter fun p => ((s.2 p).value.isNone) && ((s.2 p).candidates.contains n) with
  | [p] => (true, Function.update s.2 p { value := some n, given := false, candidates := [] })
  | _ => s

/-- The same step, taking the `(unit, number)` pair the fold iterates over. -/
def hsStep (s : Bool × Grid) : List Pos × Nat → Bool × Grid
  | (u, n) => hsStepAt s u n

/-- The common shape of the three hidden-single strategies: for each unit in
order and each number `1..9` ascending, run `hsStep`. -/
def hiddenSingleApply (units : List (List Pos)) (g : Grid) : Bool × Grid :=
  (units.flatMap fun u => nums1to9.map fun n => (u, n)).foldl hsStep (false, g)

/-- The nine rows, ascending (`RowSingleStrategy` loop order). -/
def rowUnitList : List (List Pos) := (List.range 9).map rowCells

/-- The nine columns, ascending (`ColumnSingleStrategy` loop order). -/
def colUnitList : List (List Pos) := (List.range 9).map colCells

/-- The nine blocks in row-major block order (`for br in range(0,9,3): for bc
in range(0,9,3)`). -/
def blockUnitList : List (List Pos) := (List.range 9).map blockCells

/-- `SubgridSingleStrategy.apply`. -/
def SubgridSingleStrategy.apply (g : Grid) : Bool × Grid :=
  hiddenSingleApply blockUnitList g

/-- `RowSingleStrategy.apply`. -/
def RowSingleStrategy.apply (g : Grid) : Bool × Grid :=
  hiddenSingleApply rowUnitList g

/-- `ColumnSingleStrategy.apply`. -/
def ColumnSingleStrategy.apply (g : Grid) : Bool × Grid :=
  hiddenSingleApply colUnitList g

/-- Python `set(cand1) == set(cand2)` on candidate lists. -/
def setEqB (a b : List Nat) : Bool := (a.all fun n => b.contains n) && (b.all fun n => a.contains n)

/-- The nested `idx1`/`idx2` scan of the naked-pair strategies: the first
pair (in index order) of two-candidate cells with equal candidate sets;
the eliminated numbers are `cand1`, the candidates of the first cell. -/
def findPair : List (Pos × List Nat) → Option (Pos × Pos × List Nat)
  | [] => none
  | (p, cand) :: rest =>
    match rest.find? fun q => setEqB cand q.2 with
    | some q => some (p, q.1, cand)
    | none => findPair rest

/-- Eliminate the pair's two numbers from one other unresolved cell of the
unit, recording in the Bool whether the candidate list actually changed. -/
def npElim (p1 p2 : Pos) (cand : List Nat) (s : Bool × Grid) (q : Pos) : Bool × Grid :=
  if q ≠ p1 ∧ q ≠ p2 ∧ (s.2 q).value = none then
    ((s.1 || (((s.2 q).candidates.filter fun n => !(cand.contains n)) != (s.2 q).candidates)),
      Function.update s.2 q
        { s.2 q with candidates := (s.2 q).candidates.filter fun n => !(cand.contains n) })
  else s

/-- Process one unit of a naked-pair strategy: find the first matching pair
of the unit (if any) and eliminate its numbers from the other unresolved
cells of that unit. -/
def npUnitStep (s : Bool × Grid) (u : List Pos) : Bool × Grid :=
  match findPair ((u.filter fun p => ((s.2 p).value.isNone) &&
      ((s.2 p).candidates.length == 2)).map fun p => (p, (s.2 p).candidates)) with
  | some (p1, p2, cand) => u.foldl (npElim p1 p2 cand) s
  | none => s

/-- The common shape of the three naked-pair strategies: each unit is scanned
independently; the per-unit scan stops at the first pair found in that unit. -/
def nakedPairApply (units : List (List Pos)) (g : Grid) : Bool × Grid :=
  units.foldl npUnitStep (false, g)

/-- `NakedPairColumnStrategy.apply`. -/
def NakedPairColumnStrategy.apply (g : Grid) : Bool × Grid :=
  nakedPairApply colUnitList g

/-- `NakedPairRowStrategy.apply`. -/
def NakedPairRowStrategy.apply (g : Grid) : Bool × Grid :=
  nakedPairApply rowUnitList g

/-- `NakedPairSubgridStrategy.apply`. -/
def NakedPairSubgridStrategy.apply (g : Grid) : Bool × Grid :=
  nakedPairApply blockUnitList g

/-- All 2-element sublists, in the order `itertools.combinations` yields
them. -/
def combos2 : List α → List (List α)
  | [] => []
  | x :: xs => (xs.map fun y => [x, y]) ++ combos2 xs

/-- All 3-element sublists, in the order `itertools.combinations` yields
them. -/
def combos3 : List α → List (List α)
  | [] => []
  | x :: xs => ((combos2 xs).map fun ys => x :: ys) ++ combos3 xs

/-- Eliminate the triplet's three numbers from one other unresolved cell. -/
def ntElim (ps : List Pos) (union : List Nat) (s : Bool × Grid) (q : Pos) : Bool × Grid :=
  if q ∉ ps ∧ (s.2 q).value = none then
    ((s.1 || (((s.2 q).candidates.filter fun n => !(union.contains n)) != (s.2 q).candidates)),
      Function.update s.2 q
        { s.2 q with candidates := (s.2 q).candidates.filter fun n => !(union.contains n) })
  else s

/-- Process one unit of a naked-triplet strategy: among the unresolved cells
with 2 or 3 candidates, find the first 3-combination whose candidate union
has exactly three members, and eliminate those from the rest of the unit. -/
def ntUnitStep (s : Bool × Grid) (u : List Pos) : Bool × Grid :=
  match (combos3 ((u.filter fun p => ((s.2 p).value.isNone) &&
      (decide (2 ≤ (s.2 p).candidates.length)) && (decide ((s.2 p).candidates.length ≤ 3))).map
      fun p => (p, (s.2 p).candidates))).find?
      (fun combo => (combo.flatMap fun pc => pc.2).dedup.length == 3) with
  | some combo =>
    u.foldl (ntElim (combo.map fun pc => pc.1) (combo.flatMap fun pc => pc.2).dedup) s
  | none => s

/-- The common shape of the three naked-triplet strategies. -/
def nakedTripletApply (units : List (List Pos)) (g : Grid) : Bool × Grid :=
  units.foldl ntUnitStep (false, g)

/-- `NakedTripletColumnStrategy.apply`. -/
def NakedTripletColumnStrategy.apply (g : Grid) : Bool × Grid :=
  nakedTripletApply colUnitList g

/-- `NakedTripletRowStrategy.apply`. -/
def NakedTripletRowStrategy.apply (g : Grid) : Bool × Grid :=
  nakedTripletApply rowUnitList g

/-- `NakedTripletSubgridStrategy.apply`. -/
def NakedTripletSubgridStrategy.apply (g : Grid) : Bool × Grid :=
  nakedTripletApply blockUnitList g

/-! ## Candidate engine -/

/-- `get_cell_candidates(cells)`: row-major full recomputation; each empty
cell's candidate list becomes the numbers `1..9` that `is_valid` accepts
against the current state of the fold. -/
def get_cell_candidates (g : Grid) : Grid :=
  allPositions.foldl
    (fun gc p =>
      if (gc p).value = none then
        Function.update gc p { gc p with candidates := nums1to9.filter fun n => is_valid gc n p }
      else gc)
    g

/-- One guarded erasure of `remove_filled_candidates`: if the peer is
unresolved and `val` is among its candidates, remove the first occurrence. -/
def eraseAt (v : Nat) (g : Grid) (q : Pos) : Grid :=
  if (g q).value = none ∧ v ∈ (g q).candidates then
    Function.update g q { g q with candidates := (g q).candidates.erase v }
  else g

/-- The body of `remove_filled_candidates` for one filled position: clear its
own candidates, then for `k in range(9)` erase its value from the row peer
`(r, k)` and the column peer `(k, c)`, then from the block peers. -/
def rfcOne (g : Grid) (p : Pos) : Grid :=
  match (g p).value with
  | none => Function.update g p { g p with candidates := [] }
  | some v =>
    (blockCellsOf p).foldl (eraseAt v)
      ((List.range 9).foldl
        (fun gc k => eraseAt v (eraseAt v gc (p.1, fin9 k)) (fin9 k, p.2))
        (Function.update g p { g p with candidates := [] }))

/-- `remove_filled_candidates(cells, filled)`; the Python `filled` set is
embedded as a list (the result is order-independent). -/
def remove_filled_candidates (g : Grid) (ps : List Pos) : Grid := ps.foldl rfcOne g

/-! ## Guided orchestrator -/

/-- The `strateties` list of `guided_solver`, in source order. -/
def strategyList : List (Grid → Bool × Grid) :=
  [SingleCandidateStrategy.apply, SubgridSingleStrategy.apply,
   RowSingleStrategy.apply, ColumnSingleStrategy.apply,
   NakedPairColumnStrategy.apply, NakedPairRowStrategy.apply,
   NakedPairSubgridStrategy.apply, NakedTripletColumnStrategy.apply,
   NakedTripletRowStrategy.apply, NakedTripletSubgridStrategy.apply]

/-- Outcome of one iteration of the `while should_continue` loop of
`guided_solver`: either control returns to the caller at the step boundary
(the continue/stop prompt) with the new state, or the loop breaks because the
puzzle is solved. -/
inductive StepOut where
  | cont : Grid → Nat → StepOut
  | solvedOut : Grid → StepOut
deriving DecidableEq

/-- The strategy at index `idx` of the list (the index is always in range in
the source; the default is never reached). -/
def stratAt (idx : Nat) : Grid → Bool × Grid := strategyList.getD idx fun x => (false, x)

/-- The positions filled by the pass that turned `g` into `g1`
(`after_filled - before_filled` in `guided_solver`). -/
def newlyFilled (g g1 : Grid) : List Pos :=
  allPositions.filter fun p => ((g p).value.isNone) && (((g1 p).value).isSome)

/-- Candidate propagation after a pass: `remove_filled_candidates` runs only
when the pass filled at least one cell (`if last_changes:`). -/
def guidedPost (g g1 : Grid) : Grid :=
  if (newlyFilled g g1).isEmpty then g1 else remove_filled_candidates g1 (newlyFilled g g1)

/-- One iteration of the `guided_solver` loop: apply the current strategy,
propagate candidates for newly filled cells, and on a no-change pass advance
the strategy index, wrapping to 0 after the last strategy; completion is
checked only at the wrap. -/
def guidedStep (g : Grid) (idx : Nat) : StepOut :=
  if ((stratAt idx) g).1 then StepOut.cont (guidedPost g ((stratAt idx) g).2) idx
  else
    if strategyList.length ≤ idx + 1 then
      if find_empty (guidedPost g ((stratAt idx) g).2) = none then
        StepOut.solvedOut (guidedPost g ((stratAt idx) g).2)
      else StepOut.cont (guidedPost g ((stratAt idx) g).2) 0
    else StepOut.cont (guidedPost g ((stratAt idx) g).2) (idx + 1)

/-- Run `n` guided steps with a caller that always continues. -/
def guidedRun : Nat → Grid → Nat → StepOut
  | 0, g, idx => StepOut.cont g idx
  | n + 1, g, idx =>
    match guidedStep g idx with
    | StepOut.cont g' idx' => guidedRun n g' idx'
    | out => out

/-! ## Specification predicates -/

/-- Two positions share a row, a column or a 3x3 block. -/
def sameUnit (p q : Pos) : Prop :=
  p.1 = q.1 ∨ p.2 = q.2 ∨ (p.1.val / 3 = q.1.val / 3 ∧ p.2.val / 3 = q.2.val / 3)

instance (p q : Pos) : Decidable (sameUnit p q) := by unfold sameUnit; infer_instance

/-- Every cell of the grid is resolved. -/
def CompleteG (g : Grid) : Prop := ∀ p : Pos, ((g p).value).isSome = true

instance (g : Grid) : Decidable (CompleteG g) := by unfold CompleteG; infer_instance

/-- The resolved cells of `g` hold values `1..9` and no two distinct cells of
a common unit hold the same value: a consistent partial Sudoku position. -/
def Wellformed (g : Grid) : Prop :=
  (∀ p : Pos, ∀ n, (g p).value = some n → 1 ≤ n ∧ n ≤ 9) ∧
  (∀ p q : Pos, p ≠ q → sameUnit p q → ∀ n, (g p).value = some n → ¬((g q).value = some n))

instance (g : Grid) : Decidable (Wellformed g) := by unfold Wellformed; infer_instance

/-- Every resolved value of `g` is still resolved, with the same value. -/
def ValuePreserved (g g' : Grid) : Prop :=
  ∀ p : Pos, ∀ n : Nat, (g p).value = some n → (g' p).value = some n

instance (g g' : Grid) : Decidable (ValuePreserved g g') := by
  unfold ValuePreserved; infer_instance

/-- `gs` is a valid completion of the partial grid `g` (values only): it is
complete, preserves the resolved values of `g`, fills the empty cells of `g`
with numbers `1..9`, and no two cells of a common unit with at least one
side filled in by the completion hold equal values. -/
def IsCompletion (g gs : Grid) : Prop :=
  CompleteG gs ∧ ValuePreserved g gs ∧
  (∀ p : Pos, (g p).value = none → ∃ n, 1 ≤ n ∧ n ≤ 9 ∧ (gs p).value = some n) ∧
  (∀ p q : Pos, p ≠ q → sameUnit p q → ((g p).value = none ∨ (g q).value = none) →
    (gs p).value ≠ (gs q).value)

instance (g gs : Grid) : Decidable (IsCompletion g gs) := by
  unfold IsCompletion
  haveI hd : ∀ p : Pos, Decidable ((g p).value = none → ∃ n, 1 ≤ n ∧ n ≤ 9 ∧ (gs p).value = some n) :=
    fun p =>
      decidable_of_iff
        ((g p).value = none →
          1 ≤ ((gs p).value).getD 0 ∧ ((gs p).value).getD 0 ≤ 9 ∧ ((gs p).value).isSome = true)
        (by
          constructor
          · intro h1 h2
            rcases h1 h2 with ⟨hn1, hn9, hs⟩
            rcases hv : (gs p).value with _ | m
            · rw [hv] at hs; cases hs
            · rw [hv] at hn1 hn9; exact ⟨m, hn1, hn9, rfl⟩
          · intro h1 h2
            rcases h1 h2 with ⟨n, hn1, hn9, hv⟩
            rw [hv]; exact ⟨hn1, hn9, rfl⟩)
  infer_instance

/-- The row-major vector of resolved values (`value or 0`), the order in
which the spec compares solutions lexicographically. -/
def vec (g : Grid) : List Nat := allPositions.map fun p => ((g p).value).getD 0

/-- Strict lexicographic order on value vectors. -/
inductive LexLt : List Nat → List Nat → Prop
  | head {a b : Nat} (l₁ l₂ : List Nat) (h : a < b) : LexLt (a :: l₁) (b :: l₂)
  | tail {a : Nat} {l₁ l₂ : List Nat} (h : LexLt l₁ l₂) : LexLt (a :: l₁) (a :: l₂)

/-- Number of unresolved cells. -/
def numEmpty (g : Grid) : Nat := allPositions.countP fun p => ((g p).value).isNone

/-- Invariant of a hidden-single pass relative to the entry grid `g`: each
cell is either untouched, or was empty on entry and now holds one of its
entry candidates, marked not-given, with an empty candidate list. -/
def hsInv (g : Grid) (s : Bool × Grid) : Prop :=
  ∀ p : Pos, s.2 p = g p ∨
    ((g p).value = none ∧ ∃ m ∈ (g p).candidates,
      s.2 p = { value := some m, given := false, candidates := [] })

/-- What a successful run of the backtracking search guarantees: resolved
values are preserved, the result is complete, and every cell that was empty
receives a number `1..9` differing from the final value of each of its
peers. -/
def SolveSound (g g' : Grid) : Prop :=
  ValuePreserved g g' ∧ CompleteG g' ∧
  ∀ p : Pos, (g p).value = none →
    ∃ n, 1 ≤ n ∧ n ≤ 9 ∧ (g' p).value = some n ∧
      ∀ q : Pos, q ≠ p → sameUnit p q → (g' q).value ≠ some n

/-- The 27 units: nine rows, nine columns, nine blocks. -/
def allUnits : List (List Pos) := rowUnitList ++ colUnitList ++ blockUnitList

/-! ## Concrete grids used by witnesses and counterexamples -/

/-- A complete grid every cell of which holds 5. -/
def all5Grid : Grid := fun _ => { value := some 5, given := true, candidates := [] }

/-- A shifted-rows pattern that is a valid complete Sudoku solution. -/
def demoVals (p : Pos) : Nat := (p.1.val * 3 + p.1.val / 3 + p.2.val) % 9 + 1

/-- The valid complete grid built from `demoVals`. -/
def demoSolved : Grid := fun p => { value := some (demoVals p), given := true, candidates := [] }

/-- `demoSolved` with the last cell blanked. -/
def demoOne : Grid := fun p =>
  if p = ((8 : Fin 9), (8 : Fin 9)) then { value := none, given := false, candidates := [] }
  else demoSolved p

/-- Two cells of row 0 both pre-filled with 5, all other cells empty. -/
def dupGrid : Grid := fun p =>
  if p = ((0 : Fin 9), (0 : Fin 9)) ∨ p = ((0 : Fin 9), (1 : Fin 9)) then
    { value := some 5, given := true, candidates := [] }
  else { value := none, given := false, candidates := [] }

/-- Row 0 holds `1..8` and cell (1,8) holds 9, so cell (0,8) admits no value:
`solve` fails immediately. -/
def unsolvGrid : Grid := fun p =>
  if p.1 = (0 : Fin 9) ∧ p.2.val < 8 then
    { value := some (p.2.val + 1), given := true, candidates := [] }
  else if p = ((1 : Fin 9), (8 : Fin 9)) then { value := some 9, given := true, candidates := [] }
  else { value := none, given := false, candidates := [] }

/-- One naked single at (0,0) with candidate list `[7]`, all else empty. -/
def scGrid : Grid := fun p =>
  if p = ((0 : Fin 9), (0 : Fin 9)) then { value := none, given := false, candidates := [7] }
  else { value := none, given := false, candidates := [] }

/-- A hidden single: only (0,0) has 3 among its candidates. -/
def hsGrid : Grid := fun p =>
  if p = ((0 : Fin 9), (0 : Fin 9)) then { value := none, given := false, candidates := [3] }
  else { value := none, given := false, candidates := [] }

/-- (0,0) is the unique unresolved cell of block 0 having 3 among its
candidates, but it is also the unique one having 2; numbers are examined
ascending, so a hidden-single pass fills it with 2, not 3. -/
def hs23Grid : Grid := fun p =>
  if p = ((0 : Fin 9), (0 : Fin 9)) then { value := none, given := false, candidates := [2, 3] }
  else { value := none, given := false, candidates := [] }

/-- Naked pairs in two different blocks: `[1,2]` at (0,0) and (0,1) with a
victim at (0,2), and `[4,5]` at (0,3) and (0,4) with a victim at (0,5). -/
def npGrid : Grid := fun p =>
  if p = ((0 : Fin 9), (0 : Fin 9)) ∨ p = ((0 : Fin 9), (1 : Fin 9)) then
    { value := none, given := false, candidates := [1, 2] }
  else if p = ((0 : Fin 9), (2 : Fin 9)) then { value := none, given := false, candidates := [1, 3] }
  else if p = ((0 : Fin 9), (3 : Fin 9)) ∨ p = ((0 : Fin 9), (4 : Fin 9)) then
    { value := none, given := false, candidates := [4, 5] }
  else if p = ((0 : Fin 9), (5 : Fin 9)) then { value := none, given := false, candidates := [4, 6] }
  else { value := none, given := false, candidates := [] }

/-- A filled cell at (0,0) holding 5 and a row peer at (0,4) whose candidate
list holds 5 twice. -/
def rfcGrid : Grid := fun p =>
  if p = ((0 : Fin 9), (0 : Fin 9)) then { value := some 5, given := true, candidates := [] }
  else if p = ((0 : Fin 9), (4 : Fin 9)) then { value := none, given := false, candidates := [5, 5] }
  else { value := none, given := false, candidates := [] }

/-- Same position with a duplicate-free candidate list. -/
def rfcOkGrid : Grid := fun p =>
  if p = ((0 : Fin 9), (0 : Fin 9)) then { value := some 5, given := true, candidates := [] }
  else if p = ((0 : Fin 9), (4 : Fin 9)) then { value := none, given := false, candidates := [5, 7] }
  else { value := none, given := false, candidates := [] }

/-- The filled-position list `{(0,0)}`. -/
def rfcPs : List Pos := [((0 : Fin 9), (0 : Fin 9))]

/-- The all-blank grid (the empty puzzle). -/
def emptyGrid : Grid := fun _ => { value := none, given := false, candidates := [] }

/-- The empty puzzle after full candidate recomputation: every cell is
unresolved with candidates `1..9`.  No strategy of the set makes progress on
it, so the guided orchestrator cycles on it forever. -/
def startGrid : Grid := fun _ => { value := none, given := false, candidates := nums1to9 }

/-! ## Basic facts about positions, units and scanning order -/

theorem fin9_self (a : Fin 9) : fin9 a.val = a :=
  Fin.ext (Nat.mod_eq_of_lt a.isLt)

theorem fin9_val {n : Nat} (h : n < 9) : (fin9 n).val = n := Nat.mod_eq_of_lt h

theorem mem_rowCells {r : Nat} (hr : r < 9) {q : Pos} :
    q ∈ rowCells r ↔ q.1.val = r := by
  unfold rowCells
  simp only [List.mem_map, List.mem_range]
  constructor
  · rintro ⟨c, hc, rfl⟩
    exact fin9_val hr
  · intro h
    refine ⟨q.2.val, q.2.isLt, ?_⟩
    have h1 : fin9 r = q.1 := Fin.ext (by rw [fin9_val hr, ← h])
    rw [h1, fin9_self]

theorem mem_colCells {c : Nat} (hc : c < 9) {q : Pos} :
    q ∈ colCells c ↔ q.2.val = c := by
  unfold colCells
  simp only [List.mem_map, List.mem_range]
  constructor
  · rintro ⟨r, hr, rfl⟩
    exact fin9_val hc
  · intro h
    refine ⟨q.1.val, q.1.isLt, ?_⟩
    have h1 : fin9 c = q.2 := Fin.ext (by rw [fin9_val hc, ← h])
    rw [h1, fin9_self]

theorem mem_blockCellsOf {p q : Pos} :
    q ∈ blockCellsOf p ↔ q.1.val / 3 = p.1.val / 3 ∧ q.2.val / 3 = p.2.val / 3 := by
  unfold blockCellsOf
  simp only [List.mem_flatMap, List.mem_map, List.mem_range]
  have hp1 : p.1.val < 9 := p.1.isLt
  have hp2 : p.2.val < 9 := p.2.isLt
  constructor
  · rintro ⟨i, hi, j, hj, rfl⟩
    have h1 : p.1.val / 3 * 3 + i < 9 := by omega
    have h2 : p.2.val / 3 * 3 + j < 9 := by omega
    simp only [fin9_val h1, fin9_val h2]
    omega
  · rintro ⟨h1, h2⟩
    have hq1 : q.1.val < 9 := q.1.isLt
    have hq2 : q.2.val < 9 := q.2.isLt
    refine ⟨q.1.val % 3, by omega, q.2.val % 3, by omega, ?_⟩
    have e1 : p.1.val / 3 * 3 + q.1.val % 3 = q.1.val := by omega
    have e2 : p.2.val / 3 * 3 + q.2.val % 3 = q.2.val := by omega
    rw [e1, e2, fin9_self, fin9_self]

theorem sameUnit_iff_mem (p q : Pos) :
    sameUnit p q ↔ q ∈ rowCells p.1.val ∨ q ∈ colCells p.2.val ∨ q ∈ blockCellsOf p := by
  rw [mem_rowCells p.1.isLt, mem_colCells p.2.isLt, mem_blockCellsOf]
  unfold sameUnit
  constructor
  · rintro (h | h | h)
    · exact Or.inl (by rw [h])
    · exact Or.inr (Or.inl (by rw [h]))
    · exact Or.inr (Or.inr ⟨h.1.symm, h.2.symm⟩)
  · rintro (h | h | h)
    · exact Or.inl (Fin.ext h.symm)
    · exact Or.inr (Or.inl (Fin.ext h.symm))
    · exact Or.inr (Or.inr ⟨h.1.symm, h.2.symm⟩)

theorem sameUnit_refl (p : Pos) : sameUnit p p := Or.inl rfl

theorem sameUnit_symm {p q : Pos} (h : sameUnit p q) : sameUnit q p := by
  rcases h with h | h | ⟨h1, h2⟩
  · exact Or.inl h.symm
  · exact Or.inr (Or.inl h.symm)
  · exact Or.inr (Or.inr ⟨h1.symm, h2.symm⟩)

theorem mem_allPositions (p : Pos) : p ∈ allPositions := by
  unfold allPositions
  simp only [List.mem_flatMap, List.mem_map, List.mem_range]
  exact ⟨p.1.val, p.1.isLt, p.2.val, p.2.isLt, by rw [fin9_self, fin9_self]⟩

theorem nodup_allPositions : allPositions.Nodup := by decide

theorem length_allPositions : allPositions.length = 81 := by decide

theorem mem_nums1to9 {n : Nat} : n ∈ nums1to9 ↔ 1 ≤ n ∧ n ≤ 9 := by
  unfold nums1to9
  simp only [List.mem_map, List.mem_range]
  constructor
  · rintro ⟨m, hm, rfl⟩; omega
  · intro h; exact ⟨n - 1, by omega, by omega⟩

theorem nodup_nums1to9 : nums1to9.Nodup := by decide

theorem pairwise_lt_nums1to9 : List.Pairwise (fun a b => a < b) nums1to9 := by decide

/-! ## Facts about `setValue` -/

theorem setValue_at (g : Grid) (p : Pos) (v : Option Nat) :
    (setValue g p v) p = { g p with value := v } := by
  unfold setValue; rw [Function.update_same]

theorem setValue_ne (g : Grid) (p : Pos) (v : Option Nat) {q : Pos} (h : q ≠ p) :
    (setValue g p v) q = g q := by
  unfold setValue; exact Function.update_noteq h _ _

theorem setValue_self (g : Grid) (p : Pos) : setValue g p ((g p).value) = g := by
  funext q
  by_cases h : q = p
  · subst h; rw [setValue_at]
  · rw [setValue_ne _ _ _ h]

theorem setValue_setValue (g : Grid) (p : Pos) (v w : Option Nat) :
    setValue (setValue g p v) p w = setValue g p w := by
  funext q
  by_cases h : q = p
  · subst h; rw [setValue_at, setValue_at, setValue_at]
  · rw [setValue_ne _ _ _ h, setValue_ne _ _ _ h, setValue_ne _ _ _ h]

theorem setValue_unset {g : Grid} {p : Pos} (h : (g p).value = none) (n : Nat) :
    setValue (setValue g p (some n)) p none = g := by
  rw [setValue_setValue, ← h, setValue_self]

/-! ## Generic fold and count helpers -/

theorem foldl_inv {α β : Type} {f : α → β → α} {P : α → Prop} :
    ∀ (l : List β) (a : α), (∀ x a', x ∈ l → P a' → P (f a' x)) → P a → P (l.foldl f a)
  | [], _, _, h => h
  | x :: l, a, hstep, h =>
    foldl_inv l (f a x) (fun y a' hy hp => hstep y a' (List.mem_cons_of_mem _ hy) hp)
      (hstep x a (List.mem_cons_self _ _) h)

theorem countP_flip {α : Type} (p q : α → Bool) (a : α) (hp : p a = true) (hq : q a = false)
    (hagree : ∀ b, b ≠ a → q b = p b) :
    ∀ L : List α, L.Nodup → a ∈ L → L.countP q + 1 = L.countP p := by
  intro L
  induction L with
  | nil => intro _ h; cases h
  | cons x L ih =>
    intro hnd hmem
    by_cases hxa : x = a
    · subst hxa
      have haL : x ∉ L := (List.nodup_cons.1 hnd).1
      have hcong : L.countP q = L.countP p :=
        List.countP_congr fun b hb => by rw [hagree b (fun hba => haL (hba ▸ hb))]
      simp [List.countP_cons, hp, hq, hcong]
    · have hmem' : a ∈ L := by
        rcases List.mem_cons.1 hmem with h | h
        · exact absurd h.symm hxa
        · exact h
      have := ih (List.nodup_cons.1 hnd).2 hmem'
      simp [List.countP_cons, hagree x hxa]
      omega

theorem find?_split {α : Type} (p : α → Bool) :
    ∀ (L : List α) (a : α), L.find? p = some a →
      ∃ L₁ L₂, L = L₁ ++ a :: L₂ ∧ (∀ x ∈ L₁, p x = false) ∧ p a = true := by
  intro L
  induction L with
  | nil => intro a h; cases h
  | cons x L ih =>
    intro a h
    cases hx : p x with
    | false =>
      rw [List.find?_cons, hx] at h
      rcases ih a h with ⟨L₁, L₂, hL, hfalse, hpa⟩
      refine ⟨x :: L₁, L₂, by rw [hL]; rfl, ?_, hpa⟩
      intro y hy
      rcases List.mem_cons.1 hy with rfl | hy'
      · exact hx
      · exact hfalse y hy'
    | true =>
      rw [List.find?_cons, hx] at h
      cases h
      refine ⟨[], L, rfl, ?_, hx⟩
      intro y hy
      cases hy

/-! ## Characterization of `is_valid` and `find_empty` -/

theorem is_valid_iff {g : Grid} {n : Nat} {p : Pos} :
    is_valid g n p = true ↔ ∀ q : Pos, sameUnit p q → ¬(((g q).value).getD 0 = n) := by
  unfold is_valid
  simp only [Bool.and_eq_true, List.all_eq_true, bne_iff_ne, ne_eq]
  constructor
  · rintro ⟨⟨h1, h2⟩, h3⟩ q hq
    rcases (sameUnit_iff_mem p q).1 hq with h | h | h
    · exact h1 q h
    · exact h2 q h
    · exact h3 q h
  · intro h
    refine ⟨⟨fun q hq => h q ?_, fun q hq => h q ?_⟩, fun q hq => h q ?_⟩ <;>
      rw [sameUnit_iff_mem] <;> tauto

theorem find_empty_none {g : Grid} (h : find_empty g = none) : CompleteG g := by
  intro p
  unfold find_empty at h
  rw [List.find?_eq_none] at h
  have hp := h p (mem_allPositions p)
  cases hv : (g p).value with
  | none => rw [hv] at hp; exact absurd rfl hp
  | some n => rfl

theorem find_empty_some {g : Grid} {rc : Pos} (h : find_empty g = some rc) :
    (g rc).value = none := by
  unfold find_empty at h
  have := List.find?_some h
  exact Option.isNone_iff_eq_none.1 this

theorem find_empty_of_complete {g : Grid} (h : CompleteG g) : find_empty g = none := by
  unfold find_empty
  rw [List.find?_eq_none]
  intro p _
  intro hcontra
  have hs := h p
  rw [Option.isNone_iff_eq_none] at hcontra
  rw [hcontra] at hs
  cases hs

/-! ## Equation lemmas for the backtracking search -/

theorem tryList_nil (rec : Grid → Bool × Grid) (g : Grid) (rc : Pos) :
    tryList rec g rc [] = (false, g) := rfl

theorem tryList_cons_invalid {rec : Grid → Bool × Grid} {g : Grid} {rc : Pos} {n : Nat}
    {ns : List Nat} (hv : ¬(is_valid g n rc = true)) :
    tryList rec g rc (n :: ns) = tryList rec g rc ns := by
  simp only [tryList]; rw [if_neg hv]

theorem tryList_cons_true {rec : Grid → Bool × Grid} {g : Grid} {rc : Pos} {n : Nat}
    {ns : List Nat} {g2 : Grid} (hv : is_valid g n rc = true)
    (hrec : rec (setValue g rc (some n)) = (true, g2)) :
    tryList rec g rc (n :: ns) = (true, g2) := by
  simp only [tryList]; rw [if_pos hv, hrec]; rfl

theorem tryList_cons_false {rec : Grid → Bool × Grid} {g : Grid} {rc : Pos} {n : Nat}
    {ns : List Nat} {g2 : Grid} (hv : is_valid g n rc = true)
    (hrec : rec (setValue g rc (some n)) = (false, g2)) :
    tryList rec g rc (n :: ns) = tryList rec (setValue g2 rc none) rc ns := by
  simp only [tryList]; rw [if_pos hv, hrec]; rfl

theorem solveFuel_zero (g : Grid) : solveFuel 0 g = (false, g) := rfl

theorem solveFuel_succ_none {f : Nat} {g : Grid} (h : find_empty g = none) :
    solveFuel (f + 1) g = (true, g) := by
  unfold solveFuel; rw [h]

theorem solveFuel_succ_some {f : Nat} {g : Grid} {rc : Pos} (h : find_empty g = some rc) :
    solveFuel (f + 1) g = tryList (solveFuel f) g rc nums1to9 := by
  unfold solveFuel; rw [h]

/-! ## Restoration: a failed search leaves the grid exactly as it was -/

theorem tryList_false_aux {f : Nat}
    (hf : ∀ g g', solveFuel f g = (false, g') → g' = g) :
    ∀ (ns : List Nat) (g : Grid) (rc : Pos), (g rc).value = none →
      ∀ g', tryList (solveFuel f) g rc ns = (false, g') → g' = g := by
  intro ns
  induction ns with
  | nil =>
    intro g rc hrc g' h
    rw [tryList_nil] at h
    exact (Prod.mk.injEq _ _ _ _ ▸ h).2.symm
  | cons n ns ih =>
    intro g rc hrc g' h
    by_cases hv : is_valid g n rc = true
    · cases hrec : solveFuel f (setValue g rc (some n)) with
      | mk b g2 =>
        cases b
        · rw [tryList_cons_false hv hrec] at h
          rw [hf _ _ hrec, setValue_unset hrc] at h
          exact ih g rc hrc g' h
        · rw [tryList_cons_true hv hrec] at h
          cases h
    · rw [tryList_cons_invalid hv] at h
      exact ih g rc hrc g' h

theorem solveFuel_false : ∀ (f : Nat) (g g' : Grid), solveFuel f g = (false, g') → g' = g := by
  intro f
  induction f with
  | zero =>
    intro g g' h
    rw [solveFuel_zero] at h
    exact (Prod.mk.injEq _ _ _ _ ▸ h).2.symm
  | succ f ih =>
    intro g g' h
    cases hfe : find_empty g with
    | none => rw [solveFuel_succ_none hfe] at h; cases h
    | some rc =>
      rw [solveFuel_succ_some hfe] at h
      exact tryList_false_aux ih nums1to9 g rc (find_empty_some hfe) g' h

/-! ## The search only writes the `value` field -/

theorem tryList_shape_aux {f : Nat}
    (hff : ∀ g g', solveFuel f g = (false, g') → g' = g)
    (hfs : ∀ g p, (((solveFuel f g).2) p).candidates = (g p).candidates ∧
      (((solveFuel f g).2) p).given = (g p).given) :
    ∀ (ns : List Nat) (g : Grid) (rc : Pos), (g rc).value = none →
      ∀ p, (((tryList (solveFuel f) g rc ns).2) p).candidates = (g p).candidates ∧
        (((tryList (solveFuel f) g rc ns).2) p).given = (g p).given := by
  intro ns
  induction ns with
  | nil => intro g rc hrc p; rw [tryList_nil]; exact ⟨rfl, rfl⟩
  | cons n ns ih =>
    intro g rc hrc p
    by_cases hv : is_valid g n rc = true
    · cases hrec : solveFuel f (setValue g rc (some n)) with
      | mk b g2 =>
        cases b
        · rw [tryList_cons_false hv hrec]
          rw [hff _ _ hrec, setValue_unset hrc]
          exact ih g rc hrc p
        · rw [tryList_cons_true hv hrec]
          have h1 := hfs (setValue g rc (some n)) p
          rw [hrec] at h1
          by_cases hp : p = rc
          · subst hp
            rw [setValue_at] at h1
            exact h1
          · rw [setValue_ne _ _ _ hp] at h1
            exact h1
    · rw [tryList_cons_invalid hv]
      exact ih g rc hrc p

theorem solveFuel_shape : ∀ (f : Nat) (g : Grid) (p : Pos),
    (((solveFuel f g).2) p).candidates = (g p).candidates ∧
    (((solveFuel f g).2) p).given = (g p).given := by
  intro f
  induction f with
  | zero => intro g p; rw [solveFuel_zero]; exact ⟨rfl, rfl⟩
  | succ f ih =>
    intro g p
    cases hfe : find_empty g with
    | none => rw [solveFuel_succ_none hfe]; exact ⟨rfl, rfl⟩
    | some rc =>
      rw [solveFuel_succ_some hfe]
      exact tryList_shape_aux (solveFuel_false f) ih nums1to9 g rc (find_empty_some hfe) p

/-! ## Soundness of a successful search -/

theorem tryList_sound_aux {f : Nat}
    (ihf : ∀ g g', solveFuel f g = (true, g') → SolveSound g g') :
    ∀ (ns : List Nat), (∀ n ∈ ns, 1 ≤ n ∧ n ≤ 9) →
      ∀ (g : Grid) (rc : Pos), (g rc).value = none →
        ∀ g', tryList (solveFuel f) g rc ns = (true, g') → SolveSound g g' := by
  intro ns
  induction ns with
  | nil =>
    intro _ g rc hrc g' h
    rw [tryList_nil] at h
    cases h
  | cons n ns ih =>
    intro hbounds g rc hrc g' h
    by_cases hv : is_valid g n rc = true
    · cases hrec : solveFuel f (setValue g rc (some n)) with
      | mk b g2 =>
        cases b
        · rw [tryList_cons_false hv hrec] at h
          rw [solveFuel_false f _ _ hrec, setValue_unset hrc] at h
          exact ih (fun m hm => hbounds m (List.mem_cons_of_mem _ hm)) g rc hrc g' h
        · rw [tryList_cons_true hv hrec] at h
          injection h with h1 h2
          subst h2
          rcases ihf _ _ hrec with ⟨hpres, hcomp, hfill⟩
          refine ⟨?_, hcomp, ?_⟩
          · intro p m hp
            have hne : p ≠ rc := fun hpe => by rw [hpe, hrc] at hp; cases hp
            exact hpres p m (by rw [setValue_ne _ _ _ hne]; exact hp)
          · intro p hp
            by_cases hpe : p = rc
            · subst hpe
              have hn19 := hbounds n (List.mem_cons_self _ _)
              have hval : (g2 p).value = some n :=
                hpres p n (by rw [setValue_at])
              refine ⟨n, hn19.1, hn19.2, hval, ?_⟩
              intro q hq hu
              cases hq1 : (g q).value with
              | some m =>
                have hgq : (g2 q).value = some m :=
                  hpres q m (by rw [setValue_ne _ _ _ hq]; exact hq1)
                rw [hgq]
                intro hcontra
                have hmn := Option.some.inj hcontra
                have hiv := (is_valid_iff.1 hv) q hu
                rw [hq1] at hiv
                exact hiv (by simpa using hmn)
              | none =>
                have hq1' : ((setValue g p (some n)) q).value = none := by
                  rw [setValue_ne _ _ _ hq]; exact hq1
                rcases hfill q hq1' with ⟨m, _, _, hqval, hok⟩
                have hmn : ¬((g2 p).value = some m) :=
                  hok p (fun hpq => hq hpq.symm) (sameUnit_symm hu)
                rw [hqval]
                intro hcontra
                have hem := Option.some.inj hcontra
                subst hem
                exact hmn hval
            · have hp1 : ((setValue g rc (some n)) p).value = none := by
                rw [setValue_ne _ _ _ hpe]; exact hp
              exact hfill p hp1
    · rw [tryList_cons_invalid hv] at h
      exact ih (fun m hm => hbounds m (List.mem_cons_of_mem _ hm)) g rc hrc g' h

theorem solveFuel_sound : ∀ (f : Nat) (g g' : Grid),
    solveFuel f g = (true, g') → SolveSound g g' := by
  intro f
  induction f with
  | zero => intro g g' h; rw [solveFuel_zero] at h; cases h
  | succ f ih =>
    intro g g' h
    cases hfe : find_empty g with
    | none =>
      rw [solveFuel_succ_none hfe] at h
      have hgg : g = g' := (Prod.mk.injEq _ _ _ _ ▸ h).2
      subst hgg
      have hc := find_empty_none hfe
      refine ⟨fun p n hp => hp, hc, ?_⟩
      intro p hp
      have hs := hc p
      rw [hp] at hs
      cases hs
    | some rc =>
      rw [solveFuel_succ_some hfe] at h
      exact tryList_sound_aux ih nums1to9 (fun n hn => mem_nums1to9.1 hn) g rc
        (find_empty_some hfe) g' h

/-! ## Fuel accounting -/

theorem numEmpty_le (g : Grid) : numEmpty g ≤ 81 := by
  unfold numEmpty
  calc allPositions.countP (fun p => ((g p).value).isNone) ≤ allPositions.length :=
        List.countP_le_length _
  _ = 81 := length_allPositions

theorem numEmpty_setValue {g : Grid} {rc : Pos} (h : (g rc).value = none) (n : Nat) :
    numEmpty (setValue g rc (some n)) + 1 = numEmpty g := by
  unfold numEmpty
  exact countP_flip (fun p => ((g p).value).isNone)
    (fun p => (((setValue g rc (some n)) p).value).isNone) rc
    (by show ((g rc).value).isNone = true; rw [h]; rfl)
    (by show (((setValue g rc (some n)) rc).value).isNone = false; rw [setValue_at]; rfl)
    (fun b hb => by
      show (((setValue g rc (some n)) b).value).isNone = ((g b).value).isNone
      rw [setValue_ne _ _ _ hb])
    allPositions nodup_allPositions (mem_allPositions rc)

/-! ## Completeness: the search succeeds whenever a completion exists -/

theorem is_valid_of_completion {g gs : Grid} (hc : IsCompletion g gs) {rc : Pos} {n : Nat}
    (hrc : (g rc).value = none) (hn : (gs rc).value = some n) (hn1 : 1 ≤ n) :
    is_valid g n rc = true := by
  rw [is_valid_iff]
  intro q hq
  cases hgq : (g q).value with
  | none =>
    intro hcontra
    simp only [Option.getD_none] at hcontra
    omega
  | some m =>
    intro hcontra
    have hm : m = n := by simpa using hcontra
    have hqrc : q ≠ rc := fun he => by rw [he, hrc] at hgq; cases hgq
    have h4 := hc.2.2.2 rc q (fun he => hqrc he.symm) hq (Or.inl hrc)
    have hgsq : (gs q).value = some m := hc.2.1 q m hgq
    rw [hn, hgsq] at h4
    exact h4 (by rw [hm])

theorem completion_step {g gs : Grid} (hc : IsCompletion g gs) {rc : Pos} {n : Nat}
    (hrc : (g rc).value = none) (hn : (gs rc).value = some n) :
    IsCompletion (setValue g rc (some n)) gs := by
  refine ⟨hc.1, ?_, ?_, ?_⟩
  · intro p m hp
    by_cases hpe : p = rc
    · subst hpe
      rw [setValue_at] at hp
      have hnm : n = m := Option.some.inj hp
      rw [← hnm]
      exact hn
    · rw [setValue_ne _ _ _ hpe] at hp
      exact hc.2.1 p m hp
  · intro p hp
    have hpe : p ≠ rc := by
      intro he
      rw [he, setValue_at] at hp
      cases hp
    rw [setValue_ne _ _ _ hpe] at hp
    exact hc.2.2.1 p hp
  · intro p q hne hu hor
    apply hc.2.2.2 p q hne hu
    rcases hor with h | h
    · left
      have hpe : p ≠ rc := fun he => by rw [he, setValue_at] at h; cases h
      rw [setValue_ne _ _ _ hpe] at h
      exact h
    · right
      have hpe : q ≠ rc := fun he => by rw [he, setValue_at] at h; cases h
      rw [setValue_ne _ _ _ hpe] at h
      exact h

theorem tryList_true_of_exists {f : Nat} :
    ∀ (ns : List Nat) (g : Grid) (rc : Pos), (g rc).value = none →
      (∃ n ∈ ns, is_valid g n rc = true ∧ (solveFuel f (setValue g rc (some n))).1 = true) →
      (tryList (solveFuel f) g rc ns).1 = true := by
  intro ns
  induction ns with
  | nil =>
    rintro g rc hrc ⟨n, hn, _⟩
    cases hn
  | cons m ns ih =>
    rintro g rc hrc ⟨n, hn, hvalid, htrue⟩
    by_cases hvm : is_valid g m rc = true
    · cases hrec : solveFuel f (setValue g rc (some m)) with
      | mk b g2 =>
        cases b
        · rw [tryList_cons_false hvm hrec, solveFuel_false f _ _ hrec, setValue_unset hrc]
          apply ih g rc hrc
          rcases List.mem_cons.1 hn with rfl | hn'
          · rw [hrec] at htrue; simp at htrue
          · exact ⟨n, hn', hvalid, htrue⟩
        · rw [tryList_cons_true hvm hrec]
    · rw [tryList_cons_invalid hvm]
      apply ih g rc hrc
      rcases List.mem_cons.1 hn with rfl | hn'
      · exact absurd hvalid hvm
      · exact ⟨n, hn', hvalid, htrue⟩

theorem solveFuel_completes : ∀ (f : Nat) (g gs : Grid), IsCompletion g gs →
    numEmpty g < f → (solveFuel f g).1 = true := by
  intro f
  induction f with
  | zero => intro g gs _ h; exact absurd h (Nat.not_lt_zero _)
  | succ f ih =>
    intro g gs hc hlt
    cases hfe : find_empty g with
    | none => rw [solveFuel_succ_none hfe]
    | some rc =>
      rw [solveFuel_succ_some hfe]
      have hrc := find_empty_some hfe
      rcases hc.2.2.1 rc hrc with ⟨n, hn1, hn9, hgs⟩
      apply tryList_true_of_exists nums1to9 g rc hrc
      refine ⟨n, mem_nums1to9.2 ⟨hn1, hn9⟩, is_valid_of_completion hc hrc hgs hn1, ?_⟩
      apply ih (setValue g rc (some n)) gs (completion_step hc hrc hgs)
      have := numEmpty_setValue hrc n
      omega

/-! ## Lexicographic minimality of the found solution -/

theorem map_congr_mem {α β : Type} {f g : α → β} :
    ∀ (l : List α), (∀ a ∈ l, f a = g a) → l.map f = l.map g := by
  intro l
  induction l with
  | nil => intro _; rfl
  | cons a l ih =>
    intro h
    simp only [List.map_cons]
    rw [h a (List.mem_cons_self _ _), ih fun b hb => h b (List.mem_cons_of_mem _ hb)]

theorem lexLt_append {pre : List Nat} : ∀ {x y : Nat} {u v : List Nat}, x < y →
    LexLt (pre ++ x :: u) (pre ++ y :: v) := by
  induction pre with
  | nil => intro x y u v h; exact LexLt.head u v h
  | cons a pre ih => intro x y u v h; exact LexLt.tail (ih h)

theorem tryList_true_split {f : Nat} :
    ∀ (ns : List Nat) (g : Grid) (rc : Pos), (g rc).value = none →
      ∀ g', tryList (solveFuel f) g rc ns = (true, g') →
        ∃ l₁ n l₂, ns = l₁ ++ n :: l₂ ∧ is_valid g n rc = true ∧
          solveFuel f (setValue g rc (some n)) = (true, g') ∧
          ∀ m ∈ l₁, is_valid g m rc = true → (solveFuel f (setValue g rc (some m))).1 = false := by
  intro ns
  induction ns with
  | nil =>
    intro g rc hrc g' h
    rw [tryList_nil] at h
    cases h
  | cons m ns ih =>
    intro g rc hrc g' h
    by_cases hvm : is_valid g m rc = true
    · cases hrec : solveFuel f (setValue g rc (some m)) with
      | mk b g2 =>
        cases b
        · rw [tryList_cons_false hvm hrec, solveFuel_false f _ _ hrec, setValue_unset hrc] at h
          rcases ih g rc hrc g' h with ⟨l₁, n, l₂, hsplit, hv, hrun, hfail⟩
          refine ⟨m :: l₁, n, l₂, by rw [hsplit]; rfl, hv, hrun, ?_⟩
          intro k hk hvk
          rcases List.mem_cons.1 hk with rfl | hk'
          · rw [hrec]
          · exact hfail k hk' hvk
        · rw [tryList_cons_true hvm hrec] at h
          injection h with h1 h2
          subst h2
          exact ⟨[], m, ns, rfl, hvm, hrec, fun k hk => absurd hk (List.not_mem_nil k)⟩
    · rw [tryList_cons_invalid hvm] at h
      rcases ih g rc hrc g' h with ⟨l₁, n, l₂, hsplit, hv, hrun, hfail⟩
      refine ⟨m :: l₁, n, l₂, by rw [hsplit]; rfl, hv, hrun, ?_⟩
      intro k hk hvk
      rcases List.mem_cons.1 hk with rfl | hk'
      · exact absurd hvk hvm
      · exact hfail k hk' hvk

theorem solveFuel_min : ∀ (f : Nat) (g gs g' : Grid), IsCompletion g gs → numEmpty g < f →
    solveFuel f g = (true, g') → vec g' = vec gs ∨ LexLt (vec g') (vec gs) := by
  intro f
  induction f with
  | zero => intro g gs g' _ hlt _; exact absurd hlt (Nat.not_lt_zero _)
  | succ f ih =>
    intro g gs g' hc hlt hrun
    cases hfe : find_empty g with
    | none =>
      rw [solveFuel_succ_none hfe] at hrun
      have hgg : g = g' := (Prod.mk.injEq _ _ _ _ ▸ hrun).2
      subst hgg
      left
      apply map_congr_mem
      intro p _
      have hcm := find_empty_none hfe p
      cases hv : (g p).value with
      | none => rw [hv] at hcm; cases hcm
      | some n => rw [hc.2.1 p n hv]
    | some rc =>
      rw [solveFuel_succ_some hfe] at hrun
      have hrc := find_empty_some hfe
      rcases tryList_true_split nums1to9 g rc hrc g' hrun with
        ⟨l₁, n', l₂, hsplit, hv', hrun', hfail⟩
      rcases hc.2.2.1 rc hrc with ⟨ns, hns1, hns9, hgsrc⟩
      have hfuel : numEmpty (setValue g rc (some n')) < f := by
        have h1 := numEmpty_setValue hrc n'
        omega
      have hnsmem : ns ∈ nums1to9 := mem_nums1to9.2 ⟨hns1, hns9⟩
      have hnsl : ns ∈ l₁ ++ n' :: l₂ := by rw [← hsplit]; exact hnsmem
      have hnotl1 : ns ∉ l₁ := by
        intro hin
        have hvns : is_valid g ns rc = true := is_valid_of_completion hc hrc hgsrc hns1
        have hfalse := hfail ns hin hvns
        have hfuelns : numEmpty (setValue g rc (some ns)) < f := by
          have h1 := numEmpty_setValue hrc ns
          omega
        have htrue := solveFuel_completes f (setValue g rc (some ns)) gs
          (completion_step hc hrc hgsrc) hfuelns
        rw [hfalse] at htrue
        cases htrue
      have hnstail : ns ∈ n' :: l₂ := by
        rcases List.mem_append.1 hnsl with h | h
        · exact absurd h hnotl1
        · exact h
      rcases List.mem_cons.1 hnstail with heq | hns2
      · subst heq
        exact ih (setValue g rc (some ns)) gs g' (completion_step hc hrc hgsrc) hfuel hrun'
      · have hlt' : n' < ns := by
          have hpw := pairwise_lt_nums1to9
          rw [hsplit] at hpw
          have := (List.pairwise_append.1 hpw).2.1
          exact (List.pairwise_cons.1 this).1 ns hns2
        right
        have hsound := solveFuel_sound f _ _ hrun'
        rcases find?_split _ allPositions rc
          (by unfold find_empty at hfe; exact hfe) with ⟨L₁, L₂, hLsplit, hLfalse, _⟩
        have hfront : ∀ p ∈ L₁, ((g' p).value).getD 0 = ((gs p).value).getD 0 := by
          intro p hp
          have hres : ¬(((g p).value).isNone = true) := by
            rw [hLfalse p hp]; exact Bool.false_ne_true
          cases hval : (g p).value with
          | none => rw [hval] at hres; exact absurd rfl hres
          | some k =>
            have hprc : p ≠ rc := fun he => by rw [he, hrc] at hval; cases hval
            have h1 : (g' p).value = some k :=
              hsound.1 p k (by rw [setValue_ne _ _ _ hprc]; exact hval)
            have h2 : (gs p).value = some k := hc.2.1 p k hval
            rw [h1, h2]
        have hg'rc : (g' rc).value = some n' := hsound.1 rc n' (by rw [setValue_at])
        have hveq1 : vec g' = L₁.map (fun p => ((g' p).value).getD 0) ++
            n' :: L₂.map (fun p => ((g' p).value).getD 0) := by
          unfold vec
          rw [hLsplit, List.map_append, List.map_cons, hg'rc]
          rfl
        have hveq2 : vec gs = L₁.map (fun p => ((g' p).value).getD 0) ++
            ns :: L₂.map (fun p => ((gs p).value).getD 0) := by
          unfold vec
          rw [hLsplit, List.map_append, List.map_cons, hgsrc,
            map_congr_mem L₁ fun p hp => (hfront p hp).symm]
          rfl
        rw [hveq1, hveq2]
        exact lexLt_append hlt'

/-! ## Counting values inside units -/

theorem allUnits_length : ∀ u ∈ allUnits, u.length = 9 := by decide

theorem allUnits_nodup : ∀ u ∈ allUnits, u.Nodup := by decide

theorem allUnits_sameUnit : ∀ u ∈ allUnits, ∀ p ∈ u, ∀ q ∈ u, sameUnit p q := by decide

theorem unit_perm {g : Grid} {u : List Pos}
    (hlen : u.length = 9) (hnd : u.Nodup)
    (hvals : ∀ p ∈ u, ∃ n, 1 ≤ n ∧ n ≤ 9 ∧ (g p).value = some n)
    (hdist : ∀ p ∈ u, ∀ q ∈ u, p ≠ q → (g p).value ≠ (g q).value) :
    (u.map fun p => ((g p).value).getD 0).Perm nums1to9 := by
  have hndv : (u.map fun p => ((g p).value).getD 0).Nodup := by
    apply List.Nodup.map_on ?_ hnd
    intro p hp q hq hfeq
    by_contra hne
    apply hdist p hp q hq hne
    rcases hvals p hp with ⟨a, _, _, ha⟩
    rcases hvals q hq with ⟨b, _, _, hb⟩
    rw [ha, hb] at hfeq ⊢
    simpa using hfeq
  have hsub : (u.map fun p => ((g p).value).getD 0) ⊆ nums1to9 := by
    intro x hx
    rcases List.mem_map.1 hx with ⟨p, hp, rfl⟩
    rcases hvals p hp with ⟨a, ha1, ha9, ha⟩
    rw [ha]
    exact mem_nums1to9.2 ⟨ha1, ha9⟩
  apply (hndv.subperm hsub).perm_of_length_le
  rw [List.length_map, hlen]
  decide

theorem unit_count {g : Grid} {u : List Pos}
    (hlen : u.length = 9) (hnd : u.Nodup)
    (hvals : ∀ p ∈ u, ∃ n, 1 ≤ n ∧ n ≤ 9 ∧ (g p).value = some n)
    (hdist : ∀ p ∈ u, ∀ q ∈ u, p ≠ q → (g p).value ≠ (g q).value) :
    ∀ n ∈ nums1to9, (u.map fun p => ((g p).value).getD 0).count n = 1 := by
  intro n hn
  rw [(unit_perm hlen hnd hvals hdist).count_eq]
  exact List.count_eq_one_of_mem nodup_nums1to9 hn

theorem rowCells_length : ∀ i : Fin 9, (rowCells i.val).length = 9 := by decide

theorem rowCells_nodup : ∀ i : Fin 9, (rowCells i.val).Nodup := by decide

/-- Packaging of `solveFuel_sound` for `solve` itself. -/
theorem solve_true_sound {g : Grid} (h : (solve g).1 = true) : SolveSound g (solve g).2 := by
  have hrun : solveFuel 82 g = (true, (solve g).2) := by rw [← h]; rfl
  exact solveFuel_sound 82 g _ hrun

/-! ## C1 -/

/-- C1 (amended): for every **consistent** grid (resolved values in `1..9`,
no two resolved cells of a common unit equal) on which `solve` returns true,
the resulting grid is completely filled and every row, column and 3x3 block
contains each of the numbers 1 through 9 exactly once.  (The claim as stated,
without the consistency precondition, is refuted by `C1_counterexample`.) -/
theorem C1_solve_fills_units (g : Grid) (hwf : Wellformed g) (h : (solve g).1 = true) :
    CompleteG (solve g).2 ∧
    ∀ u ∈ allUnits, ∀ n ∈ nums1to9,
      ((u.map fun p => (((solve g).2 p).value).getD 0).count n = 1) := by
  rcases solve_true_sound h with ⟨hpres, hcomp, hfill⟩
  refine ⟨hcomp, ?_⟩
  intro u hu
  apply unit_count (allUnits_length u hu) (allUnits_nodup u hu)
  · intro p _
    cases hv : (g p).value with
    | some m => exact ⟨m, (hwf.1 p m hv).1, (hwf.1 p m hv).2, hpres p m hv⟩
    | none =>
      rcases hfill p hv with ⟨m, hm1, hm9, hval, _⟩
      exact ⟨m, hm1, hm9, hval⟩
  · intro p hp q hq hne
    have hsu : sameUnit p q := allUnits_sameUnit u hu p hp q hq
    cases hvp : (g p).value with
    | none =>
      rcases hfill p hvp with ⟨m, _, _, hval, hok⟩
      rw [hval]
      intro hcontra
      exact hok q (fun he => hne he.symm) hsu hcontra.symm
    | some a =>
      cases hvq : (g q).value with
      | none =>
        rcases hfill q hvq with ⟨m, _, _, hval, hok⟩
        rw [hval]
        intro hcontra
        exact hok p hne (sameUnit_symm hsu) hcontra
      | some b =>
        rw [hpres p a hvp, hpres q b hvq]
        intro hcontra
        have hab := Option.some.inj hcontra
        apply hwf.2 p q hne hsu a hvp
        rw [hvq]
        exact congrArg some hab.symm

/-- C1 counterexample: the grid all of whose cells hold 5 makes `solve`
return true immediately (it is complete), yet its rows do not contain each
number exactly once — the universally quantified claim is false without a
consistency precondition on the input grid. -/
theorem C1_counterexample :
    (solve all5Grid).1 = true ∧
    ¬(∀ u ∈ allUnits, ∀ n ∈ nums1to9,
      ((u.map fun p => (((solve all5Grid).2 p).value).getD 0).count n = 1)) := by
  constructor
  · decide
  · decide

/-- C1 witness: the amended theorem applied to a concrete valid complete
grid. -/
theorem C1_witness :
    Wellformed demoSolved ∧ (solve demoSolved).1 = true ∧
    (CompleteG (solve demoSolved).2 ∧
      ∀ u ∈ allUnits, ∀ n ∈ nums1to9,
        ((u.map fun p => (((solve demoSolved).2 p).value).getD 0).count n = 1)) :=
  ⟨by decide, by decide, C1_solve_fills_units demoSolved (by decide) (by decide)⟩

/-! ## C5 -/

/-- C5 (amended): for every grid whose resolved cells are exactly two cells
of one row holding the same value `v` in `1..9` (all other cells empty),
`solve` returns false.  (The claim as stated — any grid with a duplicated
value in a row — is refuted by `C5_counterexample`: a complete grid with
duplicates makes `solve` return true.) -/
theorem C5_dup_row_unsolvable (g : Grid) (r c1 c2 : Fin 9) (v : Nat) (hcc : c1 ≠ c2)
    (hv1 : 1 ≤ v) (hv9 : v ≤ 9)
    (ha : (g (r, c1)).value = some v) (hb : (g (r, c2)).value = some v)
    (hrest : ∀ p : Pos, p ≠ (r, c1) → p ≠ (r, c2) → (g p).value = none) :
    (solve g).1 = false := by
  cases hres : (solve g).1 with
  | false => rfl
  | true =>
    exfalso
    rcases solve_true_sound hres with ⟨hpres, hcomp, hfill⟩
    set g' := (solve g).2 with hg'
    have hex : ∀ i : Fin 9, i ≠ r →
        ∃ c : Fin 9, (g' (i, c)).value = some v ∧ c ≠ c1 ∧ c ≠ c2 := by
      intro i hir
      have hemp : ∀ p ∈ rowCells i.val, (g p).value = none := by
        intro p hp
        have hp1 : p.1 = i := Fin.ext ((mem_rowCells i.isLt).1 hp)
        apply hrest
        · intro he
          apply hir
          rw [← hp1, he]
        · intro he
          apply hir
          rw [← hp1, he]
      have hv_perm : ((rowCells i.val).map fun p => ((g' p).value).getD 0).Perm nums1to9 := by
        apply unit_perm (rowCells_length i) (rowCells_nodup i)
        · intro p hp
          rcases hfill p (hemp p hp) with ⟨m, h1, h9, hval, _⟩
          exact ⟨m, h1, h9, hval⟩
        · intro p hp q hq hne
          rcases hfill p (hemp p hp) with ⟨m, _, _, hval, hok⟩
          have hsu : sameUnit p q :=
            Or.inl (Fin.ext (by rw [(mem_rowCells i.isLt).1 hp, (mem_rowCells i.isLt).1 hq]))
          rw [hval]
          intro hcontra
          exact hok q (fun he => hne he.symm) hsu hcontra.symm
      have hvmem : v ∈ (rowCells i.val).map fun p => ((g' p).value).getD 0 :=
        hv_perm.mem_iff.2 (mem_nums1to9.2 ⟨hv1, hv9⟩)
      rcases List.mem_map.1 hvmem with ⟨p, hp, hpv⟩
      rcases hfill p (hemp p hp) with ⟨m, _, _, hval, hok⟩
      have hmv : m = v := by rw [hval] at hpv; simpa using hpv
      rw [hmv] at hval hok
      have hp1 : p.1 = i := Fin.ext ((mem_rowCells i.isLt).1 hp)
      refine ⟨p.2, by rw [← hp1]; exact hval, ?_, ?_⟩
      · intro he
        have hq1 : (r, c1) ≠ p := fun he2 => hir (by rw [← hp1, ← he2])
        have hsu : sameUnit p (r, c1) := Or.inr (Or.inl (by rw [he]))
        exact hok (r, c1) hq1 hsu (hpres (r, c1) v ha)
      · intro he
        have hq2 : (r, c2) ≠ p := fun he2 => hir (by rw [← hp1, ← he2])
        have hsu : sameUnit p (r, c2) := Or.inr (Or.inl (by rw [he]))
        exact hok (r, c2) hq2 hsu (hpres (r, c2) v hb)
    classical
    set cho : Fin 9 → Fin 9 :=
      (fun i => if h : i ≠ r then (hex i h).choose else 0) with hcho
    have hspec : ∀ i : Fin 9, i ≠ r →
        (g' (i, cho i)).value = some v ∧ cho i ≠ c1 ∧ cho i ≠ c2 := by
      intro i h
      have hchoi : cho i = (hex i h).choose := by simp only [hcho]; rw [dif_pos h]
      rw [hchoi]
      exact (hex i h).choose_spec
    have hm2 : c2 ∈ Finset.univ.erase c1 :=
      Finset.mem_erase.2 ⟨Ne.symm hcc, Finset.mem_univ _⟩
    have hcard : ((Finset.univ.erase c1).erase c2).card < (Finset.univ.erase r).card := by
      rw [Finset.card_erase_of_mem hm2, Finset.card_erase_of_mem (Finset.mem_univ c1),
        Finset.card_erase_of_mem (Finset.mem_univ r), Finset.card_univ, Fintype.card_fin]
      omega
    have hmaps : ∀ i ∈ Finset.univ.erase r, cho i ∈ (Finset.univ.erase c1).erase c2 := by
      intro i hi
      have hir : i ≠ r := (Finset.mem_erase.1 hi).1
      rcases hspec i hir with ⟨_, h1, h2⟩
      exact Finset.mem_erase.2 ⟨h2, Finset.mem_erase.2 ⟨h1, Finset.mem_univ _⟩⟩
    rcases Finset.exists_ne_map_eq_of_card_lt_of_maps_to hcard hmaps with
      ⟨i, hi, j, hj, hij, heq⟩
    have hir : i ≠ r := (Finset.mem_erase.1 hi).1
    have hjr : j ≠ r := (Finset.mem_erase.1 hj).1
    have hvi := (hspec i hir).1
    have hvj := (hspec j hjr).1
    rw [← heq] at hvj
    have hempi : (g (i, cho i)).value = none := by
      have hne1 : (i, cho i) ≠ (r, c1) := fun he => hir (congrArg Prod.fst he)
      have hne2 : (i, cho i) ≠ (r, c2) := fun he => hir (congrArg Prod.fst he)
      exact hrest _ hne1 hne2
    rcases hfill _ hempi with ⟨m, _, _, hval, hok⟩
    have hmv : m = v := Option.some.inj (hval.symm.trans hvi)
    rw [hmv] at hok
    have hneq : (j, cho i) ≠ (i, cho i) := fun he => hij ((congrArg Prod.fst he).symm)
    have hsu : sameUnit (i, cho i) (j, cho i) := Or.inr (Or.inl rfl)
    exact hok (j, cho i) hneq hsu hvj

/-- C5 counterexample: the all-5 grid has two resolved cells of row 0 holding
the same value, yet `solve` returns true (the grid is complete, so the search
succeeds immediately): the claim is false for grids that are already
complete. -/
theorem C5_counterexample :
    (all5Grid ((0 : Fin 9), (0 : Fin 9))).value = some 5 ∧
    (all5Grid ((0 : Fin 9), (1 : Fin 9))).value = some 5 ∧
    (solve all5Grid).1 = true := ⟨rfl, rfl, by decide⟩

/-- C5 witness: the amended theorem at a concrete grid with two 5s in row 0
and all other cells empty. -/
theorem C5_witness :
    (dupGrid ((0 : Fin 9), (0 : Fin 9))).value = some 5 ∧
    (dupGrid ((0 : Fin 9), (1 : Fin 9))).value = some 5 ∧
    (solve dupGrid).1 = false :=
  ⟨rfl, rfl,
    C5_dup_row_unsolvable dupGrid 0 0 1 5 (by decide) (by decide) (by decide)
      (by decide) (by decide) (by decide)⟩

/-! ## C6 -/

/-- C6: `solve` is a pure deterministic function of the grid; whenever any
valid completion `gs` of `g` exists (in particular whenever several exist),
`solve` succeeds, its result is itself a valid completion of `g`, and its
row-major value vector is lexicographically least: it is `≤` the vector of
every completion `gs`.  This is the consequence of picking the first
unresolved cell in row-major order and trying values `1..9` ascending. -/
theorem C6_lex_first (g gs : Grid) (hc : IsCompletion g gs) :
    (solve g).1 = true ∧ IsCompletion g (solve g).2 ∧
    (vec (solve g).2 = vec gs ∨ LexLt (vec (solve g).2) (vec gs)) := by
  have hfuel : numEmpty g < 82 := lt_of_le_of_lt (numEmpty_le g) (by omega)
  have htrue : (solve g).1 = true := solveFuel_completes 82 g gs hc hfuel
  have hrun : solveFuel 82 g = (true, (solve g).2) := by rw [← htrue]; rfl
  refine ⟨htrue, ?_, solveFuel_min 82 g gs _ hc hfuel hrun⟩
  rcases solveFuel_sound 82 g _ hrun with ⟨hpres, hcomp, hfill⟩
  refine ⟨hcomp, hpres, ?_, ?_⟩
  · intro p hp
    rcases hfill p hp with ⟨n, h1, h9, hval, _⟩
    exact ⟨n, h1, h9, hval⟩
  · intro p q hne hu hor
    rcases hor with h | h
    · rcases hfill p h with ⟨n, _, _, hval, hok⟩
      rw [hval]
      intro hcontra
      exact hok q (fun he => hne he.symm) hu hcontra.symm
    · rcases hfill q h with ⟨n, _, _, hval, hok⟩
      rw [hval]
      intro hcontra
      exact hok p hne (sameUnit_symm hu) hcontra

/-- The concrete one-blank grid `demoOne` is completed by `demoSolved`. -/
theorem demoOne_completion : IsCompletion demoOne demoSolved := by decide

/-- C6 witness: the theorem at the concrete grid `demoOne`, whose unique
completion is `demoSolved`. -/
theorem C6_witness :
    IsCompletion demoOne demoSolved ∧
    ((solve demoOne).1 = true ∧ IsCompletion demoOne (solve demoOne).2 ∧
      (vec (solve demoOne).2 = vec demoSolved ∨
        LexLt (vec (solve demoOne).2) (vec demoSolved))) :=
  ⟨demoOne_completion, C6_lex_first demoOne demoSolved demoOne_completion⟩

/-! ## C7 -/

/-- C7: `solve` mutates only the `value` fields of cells — candidates and the
given flag of every cell are unchanged whatever the outcome — and when it
returns false the grid is exactly as it was on entry. -/
theorem C7_solve_conservative (g : Grid) :
    (∀ p : Pos, (((solve g).2) p).candidates = (g p).candidates ∧
      (((solve g).2) p).given = (g p).given) ∧
    ((solve g).1 = false → (solve g).2 = g) := by
  constructor
  · exact fun p => solveFuel_shape 82 g p
  · intro h
    have hrun : solveFuel 82 g = (false, (solve g).2) := by rw [← h]; rfl
    exact solveFuel_false 82 g _ hrun

/-- C7 witness: on a concrete unsolvable grid `solve` returns false and
hands back the untouched grid. -/
theorem C7_witness :
    (solve unsolvGrid).1 = false ∧ (solve unsolvGrid).2 = unsolvGrid :=
  ⟨by decide, (C7_solve_conservative unsolvGrid).2 (by decide)⟩

/-! ## Hidden-single strategies: case analysis of one step -/

theorem hsStep_eq (s : Bool × Grid) (u : List Pos) (n : Nat) :
    hsStep s (u, n) = s ∨
    ∃ p, (u.filter fun q => (((s.2 q).value).isNone) && ((s.2 q).candidates.contains n)) = [p] ∧
      (hsStep s (u, n)).1 = true ∧
      (hsStep s (u, n)).2 =
        Function.update s.2 p { value := some n, given := false, candidates := [] } := by
  show hsStepAt s u n = s ∨
    ∃ p, _ = [p] ∧ (hsStepAt s u n).1 = true ∧ (hsStepAt s u n).2 = _
  unfold hsStepAt
  cases hpos : u.filter fun q => (((s.2 q).value).isNone) && ((s.2 q).candidates.contains n) with
  | nil => left; rfl
  | cons p rest =>
    cases rest with
    | nil => right; exact ⟨p, rfl, rfl, rfl⟩
    | cons q rest2 => left; rfl

theorem hsStep_fill {s : Bool × Grid} {u : List Pos} {n : Nat} {p : Pos}
    (hflt : (u.filter fun q => (((s.2 q).value).isNone) && ((s.2 q).candidates.contains n)) = [p]) :
    (hsStep s (u, n)).2 =
      Function.update s.2 p { value := some n, given := false, candidates := [] } := by
  show (hsStepAt s u n).2 = _
  unfold hsStepAt
  rw [hflt]

theorem mem_of_filter_singleton {pred : Pos → Bool} {u : List Pos} {p : Pos}
    (h : u.filter pred = [p]) : p ∈ u ∧ pred p = true := by
  have hm : p ∈ u.filter pred := by rw [h]; exact List.mem_cons_self _ _
  exact ⟨(List.mem_filter.1 hm).1, (List.mem_filter.1 hm).2⟩

theorem hsStep_inv {g : Grid} {s : Bool × Grid} {un : List Pos × Nat} (h : hsInv g s) :
    hsInv g (hsStep s un) := by
  obtain ⟨u, n⟩ := un
  rcases hsStep_eq s u n with he | ⟨q, hflt, hb, h2⟩
  · rw [he]; exact h
  · intro p
    rw [h2]
    by_cases hpq : p = q
    · subst hpq
      right
      have hqpred := (mem_of_filter_singleton hflt).2
      rw [Bool.and_eq_true] at hqpred
      have hqnone : (s.2 p).value = none := Option.isNone_iff_eq_none.1 hqpred.1
      have hsg : s.2 p = g p := by
        rcases h p with he2 | ⟨_, m, _, heq⟩
        · exact he2
        · rw [heq] at hqnone
          cases hqnone
      have hgnone : (g p).value = none := by
        rw [← hsg]
        exact hqnone
      have hncand : n ∈ (g p).candidates := by
        have hc := hqpred.2
        rw [hsg] at hc
        simpa using hc
      rw [Function.update_same]
      exact ⟨hgnone, n, hncand, rfl⟩
    · rw [Function.update_noteq hpq]
      exact h p

theorem hsStep_isSome_mono {s : Bool × Grid} {u : List Pos} {n : Nat} {p : Pos}
    (h : ((s.2 p).value).isSome = true) : (((hsStep s (u, n)).2 p).value).isSome = true := by
  rcases hsStep_eq s u n with he | ⟨q, hflt, hb, h2⟩
  · rw [he]; exact h
  · rw [h2]
    by_cases hpq : p = q
    · subst hpq; rw [Function.update_same]; rfl
    · rw [Function.update_noteq hpq]; exact h

theorem hiddenSingle_inv (units : List (List Pos)) (g : Grid) :
    hsInv g (hiddenSingleApply units g) := by
  unfold hiddenSingleApply
  exact foldl_inv _ _ (fun x s _ hs => hsStep_inv hs) (fun p => Or.inl rfl)

theorem hiddenSingle_changed_sound (units : List (List Pos)) (g : Grid)
    (h : (hiddenSingleApply units g).1 = true) :
    ∃ p : Pos, (g p).value = none ∧ ((((hiddenSingleApply units g).2) p).value).isSome = true := by
  unfold hiddenSingleApply at h ⊢
  refine (foldl_inv (P := fun s : Bool × Grid => hsInv g s ∧ (s.1 = true →
    ∃ p : Pos, (g p).value = none ∧ ((s.2 p).value).isSome = true)) _ _ ?_ ?_).2 h
  · rintro ⟨u, n⟩ s _ ⟨hinv, hch⟩
    refine ⟨hsStep_inv hinv, ?_⟩
    intro ht
    rcases hsStep_eq s u n with he | ⟨q, hflt, hb, h2⟩
    · rw [he] at ht ⊢
      exact hch ht
    · have hqpred := (mem_of_filter_singleton hflt).2
      rw [Bool.and_eq_true] at hqpred
      have hqnone : (s.2 q).value = none := Option.isNone_iff_eq_none.1 hqpred.1
      have hgnone : (g q).value = none := by
        rcases hinv q with he2 | he2
        · rw [← he2]; exact hqnone
        · exact he2.1
      refine ⟨q, hgnone, ?_⟩
      rw [h2, Function.update_same]
      rfl
  · exact ⟨fun p => Or.inl rfl, fun hf => absurd hf Bool.false_ne_true⟩

theorem hiddenSingle_unchanged (units : List (List Pos)) (g : Grid)
    (h : (hiddenSingleApply units g).1 = false) :
    ∀ p : Pos, (((hiddenSingleApply units g).2) p).value = (g p).value := by
  unfold hiddenSingleApply at h ⊢
  refine foldl_inv (P := fun s : Bool × Grid => s.1 = false → ∀ p, (s.2 p).value = (g p).value)
    _ _ ?_ (fun _ p => rfl) h
  rintro ⟨u, n⟩ s _ hprev hfalse p
  rcases hsStep_eq s u n with he | ⟨q, hflt, hb, h2⟩
  · rw [he] at hfalse ⊢
    exact hprev hfalse p
  · rw [hb] at hfalse
    cases hfalse

theorem nodup_all_eq {l : List Pos} {a : Pos} (hnd : l.Nodup) (h : ∀ x ∈ l, x = a) :
    l = [] ∨ l = [a] := by
  cases l with
  | nil => exact Or.inl rfl
  | cons x t =>
    cases t with
    | nil => right; rw [h x (List.mem_cons_self _ _)]
    | cons y t2 =>
      exfalso
      have hx := h x (List.mem_cons_self _ _)
      have hy := h y (List.mem_cons_of_mem _ (List.mem_cons_self _ _))
      have hnm : x ∉ y :: t2 := (List.nodup_cons.1 hnd).1
      apply hnm
      rw [hx, ← hy]
      exact List.mem_cons_self _ _

theorem hsStep_untouched {s : Bool × Grid} {un : List Pos × Nat} {p : Pos}
    (h : ((s.2 p).value).isSome = true) : (hsStep s un).2 p = s.2 p := by
  obtain ⟨u, n⟩ := un
  rcases hsStep_eq s u n with he | ⟨q, hflt, hb, h2⟩
  · rw [he]
  · rw [h2]
    by_cases hpq : p = q
    · subst hpq
      exfalso
      have hqpred := (mem_of_filter_singleton hflt).2
      rw [Bool.and_eq_true] at hqpred
      rw [Option.isNone_iff_eq_none.1 hqpred.1] at h
      cases h
    · rw [Function.update_noteq hpq]

theorem hsStep_precise {s : Bool × Grid} {u : List Pos} {n : Nat} {p : Pos}
    (hflt : (u.filter fun q => (((s.2 q).value).isNone) && ((s.2 q).candidates.contains n)) = [p]) :
    (hsStep s (u, n)).1 = true ∧
    (hsStep s (u, n)).2 p = { value := some n, given := false, candidates := [] } := by
  constructor
  · show (hsStepAt s u n).1 = true
    unfold hsStepAt
    rw [hflt]
  · rw [hsStep_fill hflt, Function.update_same]

theorem hiddenSingle_fills (units : List (List Pos)) (g : Grid) (u : List Pos)
    (hu : u ∈ units) (hnd : u.Nodup) (n : Nat) (hn : n ∈ nums1to9)
    (hcount : (u.filter fun p => ((g p).value.isNone) && ((g p).candidates.contains n)).length = 1) :
    ∀ p ∈ u, (g p).value = none → n ∈ (g p).candidates →
      ∃ m ∈ (g p).candidates,
        ((hiddenSingleApply units g).2) p =
          { value := some m, given := false, candidates := [] } := by
  intro p hp hpnone hpcand
  rcases List.length_eq_one.1 hcount with ⟨p₀, hflt⟩
  have hcand : ((g p).candidates.contains n) = true := by simpa using hpcand
  have hpp0 : p = p₀ := by
    have hmem : p ∈ u.filter fun q => ((g q).value.isNone) && ((g q).candidates.contains n) := by
      rw [List.mem_filter]
      refine ⟨hp, ?_⟩
      rw [Bool.and_eq_true]
      exact ⟨by rw [hpnone]; rfl, hcand⟩
    rw [hflt] at hmem
    exact List.mem_singleton.1 hmem
  subst hpp0
  have hunmem : (u, n) ∈ units.flatMap fun x => nums1to9.map fun m => (x, m) :=
    List.mem_flatMap.2 ⟨u, hu, List.mem_map.2 ⟨n, hn, rfl⟩⟩
  rcases List.append_of_mem hunmem with ⟨L₁, L₂, hL⟩
  have hinv1 : hsInv g (L₁.foldl hsStep (false, g)) :=
    foldl_inv _ _ (fun x s _ hs => hsStep_inv hs) (fun q => Or.inl rfl)
  have hstep : ∃ m ∈ (g p).candidates,
      (hsStep (L₁.foldl hsStep (false, g)) (u, n)).2 p =
        { value := some m, given := false, candidates := [] } := by
    rcases hinv1 p with hs1p | ⟨hgn, m, hm, heq⟩
    · have hsubs : ∀ x ∈ u.filter fun q =>
          ((((L₁.foldl hsStep (false, g)).2 q).value).isNone) &&
          (((L₁.foldl hsStep (false, g)).2 q).candidates.contains n), x = p := by
        intro x hx
        rw [List.mem_filter, Bool.and_eq_true] at hx
        have hxg : (L₁.foldl hsStep (false, g)).2 x = g x := by
          rcases hinv1 x with he | ⟨_, m2, _, heq2⟩
          · exact he
          · exfalso
            have hxnone := Option.isNone_iff_eq_none.1 hx.2.1
            rw [heq2] at hxnone
            cases hxnone
        have hxmem : x ∈ u.filter fun q => ((g q).value.isNone) && ((g q).candidates.contains n) := by
          rw [List.mem_filter, Bool.and_eq_true]
          refine ⟨hx.1, ?_, ?_⟩
          · rw [← hxg]; exact hx.2.1
          · rw [← hxg]; exact hx.2.2
        rw [hflt] at hxmem
        exact List.mem_singleton.1 hxmem
      rcases nodup_all_eq (hnd.filter _) hsubs with hnil | hone
      · exfalso
        have hpm : p ∈ u.filter fun q =>
            ((((L₁.foldl hsStep (false, g)).2 q).value).isNone) &&
            (((L₁.foldl hsStep (false, g)).2 q).candidates.contains n) := by
          rw [List.mem_filter, Bool.and_eq_true, hs1p]
          exact ⟨hp, by rw [hpnone]; rfl, hcand⟩
        rw [hnil] at hpm
        cases hpm
      · exact ⟨n, hpcand, (hsStep_precise hone).2⟩
    · refine ⟨m, hm, ?_⟩
      rw [hsStep_untouched (by rw [heq]; rfl), heq]
  obtain ⟨m, hm, hcell⟩ := hstep
  refine ⟨m, hm, ?_⟩
  unfold hiddenSingleApply
  rw [hL, List.foldl_append, List.foldl_cons]
  exact foldl_inv (P := fun t : Bool × Grid =>
      t.2 p = { value := some m, given := false, candidates := [] }) L₂ _
    (fun x s _ hs => (hsStep_untouched (by rw [hs]; rfl)).trans hs) hcell

/-! ## The naked-single pass -/

theorem scStep_eq (s : Bool × Grid) (p : Pos) :
    scStep s p = s ∨
    ∃ n, (s.2 p).value = none ∧ (s.2 p).candidates = [n] ∧
      (scStep s p).1 = true ∧
      (scStep s p).2 = Function.update s.2 p { s.2 p with value := some n, given := false } := by
  unfold scStep
  cases hv : (s.2 p).value with
  | some m => left; rfl
  | none =>
    cases hc : (s.2 p).candidates with
    | nil => left; rfl
    | cons n rest =>
      cases rest with
      | nil => right; exact ⟨n, rfl, rfl, rfl, rfl⟩
      | cons m rest2 => left; rfl

theorem scStep_cands (s : Bool × Grid) (p q : Pos) :
    ((scStep s p).2 q).candidates = (s.2 q).candidates := by
  rcases scStep_eq s p with he | ⟨n, hv, hc, hb, h2⟩
  · rw [he]
  · rw [h2]
    by_cases hqp : q = p
    · subst hqp; rw [Function.update_same]
    · rw [Function.update_noteq hqp]

theorem singleCandidate_cands (g : Grid) (q : Pos) :
    (((SingleCandidateStrategy.apply g).2) q).candidates = (g q).candidates := by
  unfold SingleCandidateStrategy.apply
  exact foldl_inv (P := fun s : Bool × Grid => (s.2 q).candidates = (g q).candidates) _ _
    (fun x s _ hs => (scStep_cands s x q).trans hs) rfl

/-! ## C3 -/

/-- C3 (amended): of the strategies that set cell values, the three
hidden-single strategies clear the deduced cell's candidate list before
returning — every cell they resolve during a pass has an empty candidate
list when `apply` returns — but the naked-single strategy
(`SingleCandidateStrategy`) does not: it leaves every candidate list exactly
as it found it, including the singleton list of the cell it just filled
(cleared only later by `remove_filled_candidates`).  The claim as stated
for every strategy is refuted by `C3_counterexample`. -/
theorem C3_clears_candidates (g : Grid) :
    ((∀ p : Pos, (g p).value = none →
        ((((SubgridSingleStrategy.apply g).2) p).value).isSome = true →
        (((SubgridSingleStrategy.apply g).2) p).candidates = []) ∧
      (∀ p : Pos, (g p).value = none →
        ((((RowSingleStrategy.apply g).2) p).value).isSome = true →
        (((RowSingleStrategy.apply g).2) p).candidates = []) ∧
      (∀ p : Pos, (g p).value = none →
        ((((ColumnSingleStrategy.apply g).2) p).value).isSome = true →
        (((ColumnSingleStrategy.apply g).2) p).candidates = [])) ∧
    (∀ p : Pos, (((SingleCandidateStrategy.apply g).2) p).candidates = (g p).candidates) := by
  have key : ∀ (units : List (List Pos)) (p : Pos), (g p).value = none →
      ((((hiddenSingleApply units g).2) p).value).isSome = true →
      (((hiddenSingleApply units g).2) p).candidates = [] := by
    intro units p hnone hsome
    rcases hiddenSingle_inv units g p with he | ⟨hgn, m, hm, heq⟩
    · rw [he, hnone] at hsome
      cases hsome
    · rw [heq]
  exact ⟨⟨fun p => key blockUnitList p, fun p => key rowUnitList p, fun p => key colUnitList p⟩,
    singleCandidate_cands g⟩

/-- C3 counterexample: the naked-single strategy fills (0,0) with 7 during
its pass but returns with the cell's candidate list still `[7]`, not empty. -/
theorem C3_counterexample :
    (scGrid ((0 : Fin 9), (0 : Fin 9))).value = none ∧
    ((SingleCandidateStrategy.apply scGrid).2 ((0 : Fin 9), (0 : Fin 9))).value = some 7 ∧
    ¬(((SingleCandidateStrategy.apply scGrid).2 ((0 : Fin 9), (0 : Fin 9))).candidates = []) :=
  ⟨rfl, by decide, by decide⟩

/-- C3 witness: the amended theorem at a concrete hidden single. -/
theorem C3_witness :
    (hsGrid ((0 : Fin 9), (0 : Fin 9))).value = none ∧
    ((((SubgridSingleStrategy.apply hsGrid).2) ((0 : Fin 9), (0 : Fin 9))).value).isSome = true ∧
    (((SubgridSingleStrategy.apply hsGrid).2) ((0 : Fin 9), (0 : Fin 9))).candidates = [] :=
  ⟨rfl, by decide, (C3_clears_candidates hsGrid).1.1 _ rfl (by decide)⟩

/-! ## C8 -/

theorem rowU_sub {u : List Pos} (h : u ∈ rowUnitList) : u ∈ allUnits := by
  unfold allUnits
  exact List.mem_append.2 (Or.inl (List.mem_append.2 (Or.inl h)))

theorem colU_sub {u : List Pos} (h : u ∈ colUnitList) : u ∈ allUnits := by
  unfold allUnits
  exact List.mem_append.2 (Or.inl (List.mem_append.2 (Or.inr h)))

theorem blockU_sub {u : List Pos} (h : u ∈ blockUnitList) : u ∈ allUnits := by
  unfold allUnits
  exact List.mem_append.2 (Or.inr h)

/-- C8 (amended): for each hidden-single strategy (block, row, column): the
pass reports changed if and only if it filled at least one cell that was
empty on entry; for every unit and number, at the moment the `(unit,
number)` pair is examined during the pass, if exactly one unresolved cell of
the unit has the number among its candidates in the current state, that cell
is set to exactly that number, marked not-given, and its candidate set is
cleared (the final conjunct, about the pass's step function `hsStep`); and
if on entry exactly one unresolved cell of a unit has the number among its
candidates, that cell ends the pass holding some member of its entry
candidate list, not-given, with an empty candidate list — but not
necessarily the number in question, since numbers are examined in ascending
order and an earlier number can claim the cell first (`C8_counterexample`).
Fills in different units all land in the same pass. -/
theorem C8_hidden_single_spec (g : Grid) :
    (((SubgridSingleStrategy.apply g).1 = true ↔
        ∃ p : Pos, (g p).value = none ∧
          ((((SubgridSingleStrategy.apply g).2) p).value).isSome = true) ∧
      ∀ u ∈ blockUnitList, ∀ n ∈ nums1to9,
        (u.filter fun p => ((g p).value.isNone) && ((g p).candidates.contains n)).length = 1 →
        ∀ p ∈ u, (g p).value = none → n ∈ (g p).candidates →
          ∃ m ∈ (g p).candidates,
            ((SubgridSingleStrategy.apply g).2) p =
              { value := some m, given := false, candidates := [] }) ∧
    (((RowSingleStrategy.apply g).1 = true ↔
        ∃ p : Pos, (g p).value = none ∧
          ((((RowSingleStrategy.apply g).2) p).value).isSome = true) ∧
      ∀ u ∈ rowUnitList, ∀ n ∈ nums1to9,
        (u.filter fun p => ((g p).value.isNone) && ((g p).candidates.contains n)).length = 1 →
        ∀ p ∈ u, (g p).value = none → n ∈ (g p).candidates →
          ∃ m ∈ (g p).candidates,
            ((RowSingleStrategy.apply g).2) p =
              { value := some m, given := false, candidates := [] }) ∧
    (((ColumnSingleStrategy.apply g).1 = true ↔
        ∃ p : Pos, (g p).value = none ∧
          ((((ColumnSingleStrategy.apply g).2) p).value).isSome = true) ∧
      ∀ u ∈ colUnitList, ∀ n ∈ nums1to9,
        (u.filter fun p => ((g p).value.isNone) && ((g p).candidates.contains n)).length = 1 →
        ∀ p ∈ u, (g p).value = none → n ∈ (g p).candidates →
          ∃ m ∈ (g p).candidates,
            ((ColumnSingleStrategy.apply g).2) p =
              { value := some m, given := false, candidates := [] }) ∧
    (∀ (s : Bool × Grid) (u : List Pos) (n : Nat) (p : Pos),
      (u.filter fun q => (((s.2 q).value).isNone) && ((s.2 q).candidates.contains n)) = [p] →
      (hsStep s (u, n)).1 = true ∧
      (hsStep s (u, n)).2 p = { value := some n, given := false, candidates := [] }) := by
  have hiff : ∀ units : List (List Pos), ((hiddenSingleApply units g).1 = true ↔
      ∃ p : Pos, (g p).value = none ∧
        ((((hiddenSingleApply units g).2) p).value).isSome = true) := by
    intro units
    constructor
    · exact hiddenSingle_changed_sound units g
    · rintro ⟨p, hnone, hsome⟩
      cases hb : (hiddenSingleApply units g).1 with
      | true => rfl
      | false =>
        exfalso
        have hv := hiddenSingle_unchanged units g hb p
        rw [hnone] at hv
        rw [hv] at hsome
        cases hsome
  have hfills : ∀ (units : List (List Pos)), (∀ u ∈ units, u.Nodup) →
      ∀ u ∈ units, ∀ n ∈ nums1to9,
      (u.filter fun p => ((g p).value.isNone) && ((g p).candidates.contains n)).length = 1 →
      ∀ p ∈ u, (g p).value = none → n ∈ (g p).candidates →
        ∃ m ∈ (g p).candidates,
          ((hiddenSingleApply units g).2) p =
            { value := some m, given := false, candidates := [] } :=
    fun units hnd u hu n hn hcount =>
      hiddenSingle_fills units g u hu (hnd u hu) n hn hcount
  exact ⟨⟨hiff blockUnitList,
      hfills blockUnitList (fun u hu => allUnits_nodup u (blockU_sub hu))⟩,
    ⟨hiff rowUnitList, hfills rowUnitList (fun u hu => allUnits_nodup u (rowU_sub hu))⟩,
    ⟨hiff colUnitList, hfills colUnitList (fun u hu => allUnits_nodup u (colU_sub hu))⟩,
    fun s u n p hflt => hsStep_precise hflt⟩

/-- C8 counterexample: on `hs23Grid`, cell (0,0) is the unique unresolved
cell of block 0 with 3 among its candidates on entry, yet the block pass
leaves it holding 2 (claimed by the earlier number of the same cell), not 3:
the per-(unit, number) entry condition does not determine the number
written. -/
theorem C8_counterexample :
    ((blockCells 0).filter fun p =>
      ((hs23Grid p).value.isNone) && ((hs23Grid p).candidates.contains 3)).length = 1 ∧
    ((0 : Fin 9), (0 : Fin 9)) ∈ blockCells 0 ∧
    (hs23Grid ((0 : Fin 9), (0 : Fin 9))).value = none ∧
    (3 : Nat) ∈ (hs23Grid ((0 : Fin 9), (0 : Fin 9))).candidates ∧
    ((SubgridSingleStrategy.apply hs23Grid).2 ((0 : Fin 9), (0 : Fin 9))).value = some 2 :=
  ⟨by decide, by decide, rfl, by decide, by decide⟩

/-- C8 witness: the block-strategy conjunct applied at a concrete hidden
single (cell (0,0), number 3, block 0): the cell ends the pass filled with
one of its entry candidates, not-given, candidates cleared. -/
theorem C8_witness :
    (blockCells 0 ∈ blockUnitList ∧ (3 : Nat) ∈ nums1to9 ∧
      ((blockCells 0).filter fun p =>
        ((hsGrid p).value.isNone) && ((hsGrid p).candidates.contains 3)).length = 1 ∧
      ((0 : Fin 9), (0 : Fin 9)) ∈ blockCells 0 ∧
      (hsGrid ((0 : Fin 9), (0 : Fin 9))).value = none ∧
      (3 : Nat) ∈ (hsGrid ((0 : Fin 9), (0 : Fin 9))).candidates) ∧
    ∃ m ∈ (hsGrid ((0 : Fin 9), (0 : Fin 9))).candidates,
      ((SubgridSingleStrategy.apply hsGrid).2) ((0 : Fin 9), (0 : Fin 9)) =
        { value := some m, given := false, candidates := [] } :=
  ⟨⟨by decide, by decide, by decide, by decide, rfl, by decide⟩,
    (C8_hidden_single_spec hsGrid).1.2 (blockCells 0) (by decide) 3 (by decide) (by decide)
      ((0 : Fin 9), (0 : Fin 9)) (by decide) rfl (by decide)⟩

/-! ## C10: candidate lists only shrink, resolved values are never modified -/

theorem npElim_ok (p1 p2 : Pos) (cand : List Nat) (s : Bool × Grid) (x q : Pos) :
    (((npElim p1 p2 cand s x).2) q).candidates ⊆ (s.2 q).candidates ∧
    (((npElim p1 p2 cand s x).2) q).value = (s.2 q).value := by
  unfold npElim
  by_cases hc : x ≠ p1 ∧ x ≠ p2 ∧ (s.2 x).value = none
  · rw [if_pos hc]
    dsimp only
    by_cases hq : q = x
    · subst hq
      rw [Function.update_same]
      exact ⟨List.filter_subset' _, rfl⟩
    · rw [Function.update_noteq hq]
      exact ⟨fun a ha => ha, rfl⟩
  · rw [if_neg hc]
    exact ⟨fun a ha => ha, rfl⟩

theorem ntElim_ok (ps : List Pos) (union : List Nat) (s : Bool × Grid) (x q : Pos) :
    (((ntElim ps union s x).2) q).candidates ⊆ (s.2 q).candidates ∧
    (((ntElim ps union s x).2) q).value = (s.2 q).value := by
  unfold ntElim
  by_cases hc : x ∉ ps ∧ (s.2 x).value = none
  · rw [if_pos hc]
    dsimp only
    by_cases hq : q = x
    · subst hq
      rw [Function.update_same]
      exact ⟨List.filter_subset' _, rfl⟩
    · rw [Function.update_noteq hq]
      exact ⟨fun a ha => ha, rfl⟩
  · rw [if_neg hc]
    exact ⟨fun a ha => ha, rfl⟩

theorem npUnitStep_ok (s : Bool × Grid) (u : List Pos) (q : Pos) :
    (((npUnitStep s u).2) q).candidates ⊆ (s.2 q).candidates ∧
    (((npUnitStep s u).2) q).value = (s.2 q).value := by
  unfold npUnitStep
  cases hfp : findPair ((u.filter fun p => ((s.2 p).value.isNone) &&
      ((s.2 p).candidates.length == 2)).map fun p => (p, (s.2 p).candidates)) with
  | none => exact ⟨fun a ha => ha, rfl⟩
  | some t =>
    obtain ⟨p1, p2, cand⟩ := t
    show (((u.foldl (npElim p1 p2 cand) s).2) q).candidates ⊆ (s.2 q).candidates ∧
      (((u.foldl (npElim p1 p2 cand) s).2) q).value = (s.2 q).value
    refine foldl_inv (P := fun t : Bool × Grid =>
      ((t.2 q).candidates ⊆ (s.2 q).candidates ∧ (t.2 q).value = (s.2 q).value))
      u s ?_ ⟨fun a ha => ha, rfl⟩
    intro x t _ ht
    rcases npElim_ok p1 p2 cand t x q with ⟨h1, h2⟩
    exact ⟨fun a ha => ht.1 (h1 ha), h2.trans ht.2⟩

theorem ntUnitStep_ok (s : Bool × Grid) (u : List Pos) (q : Pos) :
    (((ntUnitStep s u).2) q).candidates ⊆ (s.2 q).candidates ∧
    (((ntUnitStep s u).2) q).value = (s.2 q).value := by
  unfold ntUnitStep
  cases hfp : (combos3 ((u.filter fun p => ((s.2 p).value.isNone) &&
      (decide (2 ≤ (s.2 p).candidates.length)) && (decide ((s.2 p).candidates.length ≤ 3))).map
      fun p => (p, (s.2 p).candidates))).find?
      (fun combo => (combo.flatMap fun pc => pc.2).dedup.length == 3) with
  | none => exact ⟨fun a ha => ha, rfl⟩
  | some combo =>
    show (((u.foldl (ntElim (combo.map fun pc => pc.1)
        (combo.flatMap fun pc => pc.2).dedup) s).2) q).candidates ⊆ (s.2 q).candidates ∧
      (((u.foldl (ntElim (combo.map fun pc => pc.1)
        (combo.flatMap fun pc => pc.2).dedup) s).2) q).value = (s.2 q).value
    refine foldl_inv (P := fun t : Bool × Grid =>
      ((t.2 q).candidates ⊆ (s.2 q).candidates ∧ (t.2 q).value = (s.2 q).value))
      u s ?_ ⟨fun a ha => ha, rfl⟩
    intro x t _ ht
    rcases ntElim_ok (combo.map fun pc => pc.1) (combo.flatMap fun pc => pc.2).dedup t x q with
      ⟨h1, h2⟩
    exact ⟨fun a ha => ht.1 (h1 ha), h2.trans ht.2⟩

theorem nakedPair_ok (units : List (List Pos)) (g : Grid) (q : Pos) :
    ((((nakedPairApply units g).2) q).candidates ⊆ (g q).candidates) ∧
    (((nakedPairApply units g).2) q).value = (g q).value := by
  unfold nakedPairApply
  refine foldl_inv (P := fun t : Bool × Grid =>
    ((t.2 q).candidates ⊆ (g q).candidates ∧ (t.2 q).value = (g q).value))
    units (false, g) ?_ ⟨fun a ha => ha, rfl⟩
  intro u t _ ht
  rcases npUnitStep_ok t u q with ⟨h1, h2⟩
  exact ⟨fun a ha => ht.1 (h1 ha), h2.trans ht.2⟩

theorem nakedTriplet_ok (units : List (List Pos)) (g : Grid) (q : Pos) :
    ((((nakedTripletApply units g).2) q).candidates ⊆ (g q).candidates) ∧
    (((nakedTripletApply units g).2) q).value = (g q).value := by
  unfold nakedTripletApply
  refine foldl_inv (P := fun t : Bool × Grid =>
    ((t.2 q).candidates ⊆ (g q).candidates ∧ (t.2 q).value = (g q).value))
    units (false, g) ?_ ⟨fun a ha => ha, rfl⟩
  intro u t _ ht
  rcases ntUnitStep_ok t u q with ⟨h1, h2⟩
  exact ⟨fun a ha => ht.1 (h1 ha), h2.trans ht.2⟩

theorem hsStep_value_pres {s : Bool × Grid} {u : List Pos} {n : Nat} {q : Pos} {m : Nat}
    (h : (s.2 q).value = some m) : (((hsStep s (u, n)).2) q).value = some m := by
  rcases hsStep_eq s u n with he | ⟨p, hflt, hb, h2⟩
  · rw [he]; exact h
  · rw [h2]
    by_cases hqp : q = p
    · exfalso
      have hpred := (mem_of_filter_singleton hflt).2
      rw [Bool.and_eq_true] at hpred
      have := Option.isNone_iff_eq_none.1 hpred.1
      rw [← hqp, h] at this
      cases this
    · rw [Function.update_noteq hqp]
      exact h

theorem hiddenSingle_value_pres (units : List (List Pos)) (g : Grid) (q : Pos) (m : Nat)
    (h : (g q).value = some m) : ((((hiddenSingleApply units g).2) q).value) = some m := by
  unfold hiddenSingleApply
  refine foldl_inv (P := fun t : Bool × Grid => (t.2 q).value = some m) _ _ ?_ h
  rintro ⟨u, n⟩ t _ ht
  exact hsStep_value_pres ht

theorem hiddenSingle_cands_shrink (units : List (List Pos)) (g : Grid) (q : Pos) :
    (((hiddenSingleApply units g).2) q).candidates ⊆ (g q).candidates := by
  rcases hiddenSingle_inv units g q with he | ⟨hgn, m, hm, heq⟩
  · rw [he]
    exact fun a ha => ha
  · rw [heq]
    exact List.nil_subset _

theorem scStep_value_pres {s : Bool × Grid} {x q : Pos} {m : Nat}
    (h : (s.2 q).value = some m) : (((scStep s x).2) q).value = some m := by
  rcases scStep_eq s x with he | ⟨n, hv, hc, hb, h2⟩
  · rw [he]; exact h
  · rw [h2]
    by_cases hqx : q = x
    · exfalso
      rw [← hqx, h] at hv
      cases hv
    · rw [Function.update_noteq hqx]
      exact h

theorem singleCandidate_value_pres (g : Grid) (q : Pos) (m : Nat)
    (h : (g q).value = some m) : ((((SingleCandidateStrategy.apply g).2) q).value) = some m := by
  unfold SingleCandidateStrategy.apply
  refine foldl_inv (P := fun t : Bool × Grid => (t.2 q).value = some m) _ _ ?_ h
  intro x t _ ht
  exact scStep_value_pres ht

theorem eraseAt_ok (v : Nat) (g : Grid) (x q : Pos) :
    ((eraseAt v g x) q).candidates ⊆ (g q).candidates ∧
    ((eraseAt v g x) q).value = (g q).value := by
  unfold eraseAt
  by_cases hc : (g x).value = none ∧ v ∈ (g x).candidates
  · rw [if_pos hc]
    by_cases hq : q = x
    · subst hq
      rw [Function.update_same]
      exact ⟨List.erase_subset _ _, rfl⟩
    · rw [Function.update_noteq hq]
      exact ⟨fun a ha => ha, rfl⟩
  · rw [if_neg hc]
    exact ⟨fun a ha => ha, rfl⟩

theorem gfold_ok {β : Type} {f : Grid → β → Grid}
    (hstep : ∀ (gc : Grid) (b : β) (q : Pos),
      ((f gc b) q).candidates ⊆ (gc q).candidates ∧ ((f gc b) q).value = (gc q).value) :
    ∀ (l : List β) (g0 : Grid) (q : Pos),
      ((l.foldl f g0) q).candidates ⊆ (g0 q).candidates ∧
      ((l.foldl f g0) q).value = (g0 q).value := by
  intro l
  induction l with
  | nil => exact fun g0 q => ⟨fun a ha => ha, rfl⟩
  | cons b l ih =>
    intro g0 q
    rcases hstep g0 b q with ⟨h1, h2⟩
    rcases ih (f g0 b) q with ⟨h3, h4⟩
    exact ⟨fun a ha => h1 (h3 ha), h4.trans h2⟩

theorem rfcOne_ok (g : Grid) (x q : Pos) :
    ((rfcOne g x) q).candidates ⊆ (g q).candidates ∧ ((rfcOne g x) q).value = (g q).value := by
  have hbase : ∀ q : Pos,
      ((Function.update g x { g x with candidates := [] }) q).candidates ⊆ (g q).candidates ∧
      ((Function.update g x { g x with candidates := [] }) q).value = (g q).value := by
    intro q
    by_cases hq : q = x
    · subst hq
      rw [Function.update_same]
      exact ⟨List.nil_subset _, rfl⟩
    · rw [Function.update_noteq hq]
      exact ⟨fun a ha => ha, rfl⟩
  unfold rfcOne
  cases hv : (g x).value with
  | none => exact hbase q
  | some v =>
    have hinner := gfold_ok (f := fun gc k => eraseAt v (eraseAt v gc (x.1, fin9 k)) (fin9 k, x.2))
      (fun gc k q => by
        rcases eraseAt_ok v gc (x.1, fin9 k) q with ⟨h1, h2⟩
        rcases eraseAt_ok v (eraseAt v gc (x.1, fin9 k)) (fin9 k, x.2) q with ⟨h3, h4⟩
        exact ⟨fun a ha => h1 (h3 ha), h4.trans h2⟩)
      (List.range 9) (Function.update g x { g x with candidates := [] })
    have houter := gfold_ok (f := eraseAt v) (fun gc b q => eraseAt_ok v gc b q)
      (blockCellsOf x)
      ((List.range 9).foldl
        (fun gc k => eraseAt v (eraseAt v gc (x.1, fin9 k)) (fin9 k, x.2))
        (Function.update g x { g x with candidates := [] }))
    rcases houter q with ⟨h1, h2⟩
    rcases hinner q with ⟨h3, h4⟩
    rcases hbase q with ⟨h5, h6⟩
    exact ⟨fun a ha => h5 (h3 (h1 ha)), (h2.trans h4).trans h6⟩

theorem rfc_ok (g : Grid) (ps : List Pos) (q : Pos) :
    ((remove_filled_candidates g ps) q).candidates ⊆ (g q).candidates ∧
    ((remove_filled_candidates g ps) q).value = (g q).value := by
  unfold remove_filled_candidates
  exact gfold_ok (fun gc b q => rfcOne_ok gc b q) ps g q

/-- C10: for every strategy of the strategy set and every call to
`remove_filled_candidates`, each cell's candidate list on exit is a subset of
its candidate list on entry (no candidate is ever added), and no resolved
cell's value is modified; only the full recomputation `get_cell_candidates`
can enlarge a candidate list. -/
theorem C10_candidates_shrink :
    (∀ f ∈ strategyList, ∀ (g : Grid) (q : Pos),
      ((((f g).2) q).candidates ⊆ (g q).candidates) ∧
      (∀ n : Nat, (g q).value = some n → (((f g).2) q).value = some n)) ∧
    (∀ (g : Grid) (ps : List Pos) (q : Pos),
      (((remove_filled_candidates g ps) q).candidates ⊆ (g q).candidates) ∧
      (∀ n : Nat, (g q).value = some n → ((remove_filled_candidates g ps) q).value = some n)) := by
  constructor
  · intro f hf
    have hhs : ∀ (units : List (List Pos)) (g : Grid) (q : Pos),
        ((((hiddenSingleApply units g).2) q).candidates ⊆ (g q).candidates) ∧
        (∀ n : Nat, (g q).value = some n → (((hiddenSingleApply units g).2) q).value = some n) :=
      fun units g q =>
        ⟨hiddenSingle_cands_shrink units g q, fun n hn => hiddenSingle_value_pres units g q n hn⟩
    have hnp : ∀ (units : List (List Pos)) (g : Grid) (q : Pos),
        ((((nakedPairApply units g).2) q).candidates ⊆ (g q).candidates) ∧
        (∀ n : Nat, (g q).value = some n → (((nakedPairApply units g).2) q).value = some n) :=
      fun units g q =>
        ⟨(nakedPair_ok units g q).1, fun n hn => by rw [(nakedPair_ok units g q).2]; exact hn⟩
    have hnt : ∀ (units : List (List Pos)) (g : Grid) (q : Pos),
        ((((nakedTripletApply units g).2) q).candidates ⊆ (g q).candidates) ∧
        (∀ n : Nat, (g q).value = some n → (((nakedTripletApply units g).2) q).value = some n) :=
      fun units g q =>
        ⟨(nakedTriplet_ok units g q).1,
          fun n hn => by rw [(nakedTriplet_ok units g q).2]; exact hn⟩
    simp only [strategyList, List.mem_cons, List.not_mem_nil, or_false] at hf
    rcases hf with rfl | rfl | rfl | rfl | rfl | rfl | rfl | rfl | rfl | rfl
    · exact fun g q => ⟨by rw [singleCandidate_cands]; exact fun a ha => ha,
        fun n hn => singleCandidate_value_pres g q n hn⟩
    · unfold SubgridSingleStrategy.apply
      exact hhs blockUnitList
    · unfold RowSingleStrategy.apply
      exact hhs rowUnitList
    · unfold ColumnSingleStrategy.apply
      exact hhs colUnitList
    · unfold NakedPairColumnStrategy.apply
      exact hnp colUnitList
    · unfold NakedPairRowStrategy.apply
      exact hnp rowUnitList
    · unfold NakedPairSubgridStrategy.apply
      exact hnp blockUnitList
    · unfold NakedTripletColumnStrategy.apply
      exact hnt colUnitList
    · unfold NakedTripletRowStrategy.apply
      exact hnt rowUnitList
    · unfold NakedTripletSubgridStrategy.apply
      exact hnt blockUnitList
  · intro g ps q
    rcases rfc_ok g ps q with ⟨h1, h2⟩
    exact ⟨h1, fun n hn => by rw [h2]; exact hn⟩

/-- C10 witness: the theorem applied to the first strategy of the list at a
concrete resolved cell. -/
theorem C10_witness :
    SingleCandidateStrategy.apply ∈ strategyList ∧
    ((((SingleCandidateStrategy.apply all5Grid).2) ((0 : Fin 9), (0 : Fin 9))).candidates ⊆
      (all5Grid ((0 : Fin 9), (0 : Fin 9))).candidates) ∧
    (((SingleCandidateStrategy.apply all5Grid).2) ((0 : Fin 9), (0 : Fin 9))).value = some 5 :=
  ⟨List.mem_cons_self _ _,
    (C10_candidates_shrink.1 SingleCandidateStrategy.apply (List.mem_cons_self _ _)
      all5Grid ((0 : Fin 9), (0 : Fin 9))).1,
    (C10_candidates_shrink.1 SingleCandidateStrategy.apply (List.mem_cons_self _ _)
      all5Grid ((0 : Fin 9), (0 : Fin 9))).2 5 rfl⟩

/-! ## C4: the naked-pair subgrid strategy processes every block -/

theorem foldl_rel₂ {α β : Type} {f : α → β → α} {R : α → α → Prop} :
    ∀ (l : List β) (a b : α), R a b →
      (∀ x a' b', x ∈ l → R a' b' → R (f a' x) (f b' x)) →
      R (l.foldl f a) (l.foldl f b) := by
  intro l
  induction l with
  | nil => exact fun a b h _ => h
  | cons x l ih =>
    intro a b h hstep
    exact ih (f a x) (f b x) (hstep x a b (List.mem_cons_self _ _) h)
      (fun y a' b' hy => hstep y a' b' (List.mem_cons_of_mem _ hy))

theorem npElim_untouched (p1 p2 : Pos) (cand : List Nat) (s : Bool × Grid) (x q : Pos)
    (h : q ≠ x) : ((npElim p1 p2 cand s x).2) q = s.2 q := by
  unfold npElim
  by_cases hc : x ≠ p1 ∧ x ≠ p2 ∧ (s.2 x).value = none
  · rw [if_pos hc]
    dsimp only
    rw [Function.update_noteq h]
  · rw [if_neg hc]

theorem npUnitStep_footprint (s : Bool × Grid) (u : List Pos) (q : Pos) (hq : q ∉ u) :
    ((npUnitStep s u).2) q = s.2 q := by
  unfold npUnitStep
  cases hfp : findPair ((u.filter fun p => ((s.2 p).value.isNone) &&
      ((s.2 p).candidates.length == 2)).map fun p => (p, (s.2 p).candidates)) with
  | none => rfl
  | some t =>
    obtain ⟨p1, p2, cand⟩ := t
    show ((u.foldl (npElim p1 p2 cand) s).2) q = s.2 q
    refine foldl_inv (P := fun t : Bool × Grid => t.2 q = s.2 q) u s ?_ rfl
    intro x t hx ht
    rw [npElim_untouched p1 p2 cand t x q (fun he => hq (he ▸ hx)), ht]

theorem npElim_congr {u : List Pos} (p1 p2 : Pos) (cand : List Nat) (s t : Bool × Grid)
    (x : Pos) (hxu : x ∈ u) (h : ∀ p ∈ u, s.2 p = t.2 p) :
    ∀ p ∈ u, ((npElim p1 p2 cand s x).2) p = ((npElim p1 p2 cand t x).2) p := by
  intro p hp
  have hsx := h x hxu
  unfold npElim
  by_cases hc : x ≠ p1 ∧ x ≠ p2 ∧ (s.2 x).value = none
  · have hc' : x ≠ p1 ∧ x ≠ p2 ∧ (t.2 x).value = none :=
      ⟨hc.1, hc.2.1, by rw [← hsx]; exact hc.2.2⟩
    rw [if_pos hc, if_pos hc']
    dsimp only
    by_cases hpx : p = x
    · subst hpx
      rw [Function.update_same, Function.update_same, hsx]
    · rw [Function.update_noteq hpx, Function.update_noteq hpx]
      exact h p hp
  · have hc' : ¬(x ≠ p1 ∧ x ≠ p2 ∧ (t.2 x).value = none) := fun hcon =>
      hc ⟨hcon.1, hcon.2.1, by rw [hsx]; exact hcon.2.2⟩
    rw [if_neg hc, if_neg hc']
    exact h p hp

theorem npUnitStep_congr (s t : Bool × Grid) (u : List Pos)
    (h : ∀ p ∈ u, s.2 p = t.2 p) :
    ∀ p ∈ u, ((npUnitStep s u).2) p = ((npUnitStep t u).2) p := by
  have hfilter : (u.filter fun p => ((s.2 p).value.isNone) && ((s.2 p).candidates.length == 2)) =
      (u.filter fun p => ((t.2 p).value.isNone) && ((t.2 p).candidates.length == 2)) :=
    List.filter_congr fun p hp => by rw [h p hp]
  have hmap : ((u.filter fun p => ((s.2 p).value.isNone) &&
        ((s.2 p).candidates.length == 2)).map fun p => (p, (s.2 p).candidates)) =
      ((u.filter fun p => ((t.2 p).value.isNone) &&
        ((t.2 p).candidates.length == 2)).map fun p => (p, (t.2 p).candidates)) := by
    rw [← hfilter]
    apply map_congr_mem
    intro p hp
    rw [h p ((List.mem_filter.1 hp).1)]
  unfold npUnitStep
  rw [hmap]
  cases hfp : findPair ((u.filter fun p => ((t.2 p).value.isNone) &&
      ((t.2 p).candidates.length == 2)).map fun p => (p, (t.2 p).candidates)) with
  | none => exact h
  | some tr =>
    obtain ⟨p1, p2, cand⟩ := tr
    intro p hp
    show ((u.foldl (npElim p1 p2 cand) s).2) p = ((u.foldl (npElim p1 p2 cand) t).2) p
    refine foldl_rel₂ (R := fun a b : Bool × Grid => ∀ p ∈ u, a.2 p = b.2 p) u s t h ?_ p hp
    intro x a b hx hab
    exact npElim_congr p1 p2 cand a b x hx hab

theorem blockUnitList_nodup : blockUnitList.Nodup := by decide

theorem blockUnitList_disjoint :
    ∀ u ∈ blockUnitList, ∀ u' ∈ blockUnitList, u ≠ u' → ∀ p ∈ u, p ∉ u' := by decide

/-- C4 (amended): one pass of the naked-pair subgrid strategy processes the
nine blocks independently: within each block the scan stops at the first pair
found in that block, but the pass then continues with the next block — the
state of each block's cells after the full pass is exactly what processing
that block alone on the entry grid produces.  In particular, eliminations do
happen in blocks scanned after the first block containing a pair, refuting
the claimed pass-wide stop (see `C4_counterexample`). -/
theorem C4_per_block (g : Grid) : ∀ u ∈ blockUnitList, ∀ p ∈ u,
    (((NakedPairSubgridStrategy.apply g).2) p) = ((npUnitStep (false, g) u).2) p := by
  intro u hu p hp
  unfold NakedPairSubgridStrategy.apply nakedPairApply
  rcases List.append_of_mem hu with ⟨L₁, L₂, hL⟩
  have hnd := blockUnitList_nodup
  rw [hL] at hnd
  rcases List.nodup_append.1 hnd with ⟨hnd1, hnd2, hdisj⟩
  have hunotl1 : u ∉ L₁ := fun hin => hdisj hin (List.mem_cons_self _ _)
  have hunotl2 : u ∉ L₂ := (List.nodup_cons.1 hnd2).1
  have hl1sub : ∀ u' ∈ L₁, u' ∈ blockUnitList := fun u' h' => by
    rw [hL]; exact List.mem_append.2 (Or.inl h')
  have hl2sub : ∀ u' ∈ L₂, u' ∈ blockUnitList := fun u' h' => by
    rw [hL]; exact List.mem_append.2 (Or.inr (List.mem_cons_of_mem _ h'))
  rw [hL, List.foldl_append, List.foldl_cons]
  have hagree : ∀ q ∈ u, ((L₁.foldl npUnitStep (false, g)).2) q = g q := by
    refine foldl_inv (P := fun t : Bool × Grid => ∀ q ∈ u, t.2 q = g q) L₁ (false, g)
      ?_ (fun q _ => rfl)
    intro x t hx ht q hq
    have hux : u ≠ x := fun he => hunotl1 (he ▸ hx)
    rw [npUnitStep_footprint t x q (blockUnitList_disjoint u hu x (hl1sub x hx) hux q hq)]
    exact ht q hq
  have hstep : ∀ q ∈ u,
      ((npUnitStep (L₁.foldl npUnitStep (false, g)) u).2) q = ((npUnitStep (false, g) u).2) q :=
    npUnitStep_congr _ _ u fun q hq => hagree q hq
  have hfin : ∀ q ∈ u,
      ((L₂.foldl npUnitStep (npUnitStep (L₁.foldl npUnitStep (false, g)) u)).2) q =
        ((npUnitStep (L₁.foldl npUnitStep (false, g)) u).2) q := by
    refine foldl_inv (P := fun t : Bool × Grid => ∀ q ∈ u,
      t.2 q = ((npUnitStep (L₁.foldl npUnitStep (false, g)) u).2) q) L₂ _ ?_ (fun q _ => rfl)
    intro x t hx ht q hq
    have hux : u ≠ x := fun he => hunotl2 (he ▸ hx)
    rw [npUnitStep_footprint t x q (blockUnitList_disjoint u hu x (hl2sub x hx) hux q hq)]
    exact ht q hq
  rw [hfin p hp, hstep p hp]

/-- C4 counterexample: with naked pairs in block 0 (at (0,0) and (0,1)) and
in block 1 (at (0,3) and (0,4)), one pass of the subgrid strategy performs
eliminations in **both** blocks: the victim (0,5) of the second block is
reduced to `[6]` even though a pair was already found and acted on in the
first block — the scan does not stop at the first pair across blocks. -/
theorem C4_counterexample :
    ((NakedPairSubgridStrategy.apply npGrid).2 ((0 : Fin 9), (2 : Fin 9))).candidates = [3] ∧
    ((NakedPairSubgridStrategy.apply npGrid).2 ((0 : Fin 9), (5 : Fin 9))).candidates = [6] ∧
    (NakedPairSubgridStrategy.apply npGrid).1 = true := by
  refine ⟨by decide, by decide, by decide⟩

/-- C4 witness: the amended per-block theorem at the second block of the
counterexample grid. -/
theorem C4_witness :
    blockCells 1 ∈ blockUnitList ∧ ((0 : Fin 9), (5 : Fin 9)) ∈ blockCells 1 ∧
    (((NakedPairSubgridStrategy.apply npGrid).2) ((0 : Fin 9), (5 : Fin 9))) =
      ((npUnitStep (false, npGrid) (blockCells 1)).2) ((0 : Fin 9), (5 : Fin 9)) :=
  ⟨by decide, by decide,
    C4_per_block npGrid (blockCells 1) (by decide) ((0 : Fin 9), (5 : Fin 9)) (by decide)⟩

/-! ## C9: idempotence of `remove_filled_candidates` -/

theorem foldl_fixed {α β : Type} {f : α → β → α} {a : α} :
    ∀ l : List β, (∀ b ∈ l, f a b = a) → l.foldl f a = a := by
  intro l
  induction l with
  | nil => intro _; rfl
  | cons b l ih =>
    intro h
    rw [List.foldl_cons, h b (List.mem_cons_self _ _)]
    exact ih fun c hc => h c (List.mem_cons_of_mem _ hc)

theorem cell_clear_eq {c : Cell} (h : c.candidates = []) : { c with candidates := [] } = c := by
  cases c
  simp_all

theorem rfcOne_none {g : Grid} {p : Pos} (h : (g p).value = none) :
    rfcOne g p = Function.update g p { g p with candidates := [] } := by
  unfold rfcOne
  rw [h]

theorem rfcOne_some {g : Grid} {p : Pos} {v : Nat} (h : (g p).value = some v) :
    rfcOne g p = (blockCellsOf p).foldl (eraseAt v)
      ((List.range 9).foldl
        (fun gc k => eraseAt v (eraseAt v gc (p.1, fin9 k)) (fin9 k, p.2))
        (Function.update g p { g p with candidates := [] })) := by
  unfold rfcOne
  rw [h]

theorem eraseAt_nodup {v : Nat} {g : Grid} {x : Pos}
    (h : ∀ q : Pos, ((g q).candidates).Nodup) :
    ∀ q : Pos, (((eraseAt v g x) q).candidates).Nodup := by
  intro q
  unfold eraseAt
  by_cases hc : (g x).value = none ∧ v ∈ (g x).candidates
  · rw [if_pos hc]
    by_cases hq : q = x
    · subst hq
      rw [Function.update_same]
      exact List.Nodup.erase v (h q)
    · rw [Function.update_noteq hq]
      exact h q
  · rw [if_neg hc]
    exact h q

theorem clear_nodup {g : Grid} {p : Pos} (h : ∀ q : Pos, ((g q).candidates).Nodup) :
    ∀ q : Pos, (((Function.update g p { g p with candidates := [] }) q).candidates).Nodup := by
  intro q
  by_cases hq : q = p
  · subst hq
    rw [Function.update_same]
    exact List.nodup_nil
  · rw [Function.update_noteq hq]
    exact h q

theorem gfold_nodup {β : Type} {f : Grid → β → Grid}
    (hstep : ∀ (gc : Grid) (b : β), (∀ q : Pos, ((gc q).candidates).Nodup) →
      ∀ q : Pos, (((f gc b) q).candidates).Nodup) :
    ∀ (l : List β) (g0 : Grid), (∀ q : Pos, ((g0 q).candidates).Nodup) →
      ∀ q : Pos, (((l.foldl f g0) q).candidates).Nodup := by
  intro l
  induction l with
  | nil => exact fun g0 h => h
  | cons b l ih => exact fun g0 h => ih (f g0 b) (hstep g0 b h)

theorem rfcOne_nodup {g : Grid} {x : Pos} (h : ∀ q : Pos, ((g q).candidates).Nodup) :
    ∀ q : Pos, (((rfcOne g x) q).candidates).Nodup := by
  cases hv : (g x).value with
  | none =>
    rw [rfcOne_none hv]
    exact clear_nodup h
  | some v =>
    rw [rfcOne_some hv]
    exact gfold_nodup (fun gc b hq => eraseAt_nodup hq) _ _
      (gfold_nodup (fun gc b hq q => eraseAt_nodup (eraseAt_nodup hq) q) _ _ (clear_nodup h))

theorem eraseAt_removes {v : Nat} {g : Grid} {x : Pos} (hnd : ((g x).candidates).Nodup) :
    ((eraseAt v g x) x).value = none → v ∉ ((eraseAt v g x) x).candidates := by
  unfold eraseAt
  by_cases hc : (g x).value = none ∧ v ∈ (g x).candidates
  · rw [if_pos hc, Function.update_same]
    intro _ hmem
    exact ((hnd.mem_erase_iff).1 hmem).1 rfl
  · rw [if_neg hc]
    intro hnone hmem
    exact hc ⟨hnone, hmem⟩

theorem rcStep_ok (v : Nat) (p : Pos) (gI : Grid) (k : Nat) (r : Pos) :
    (((eraseAt v (eraseAt v gI (p.1, fin9 k)) (fin9 k, p.2)) r).candidates ⊆
      (gI r).candidates) ∧
    ((eraseAt v (eraseAt v gI (p.1, fin9 k)) (fin9 k, p.2)) r).value = (gI r).value := by
  rcases eraseAt_ok v gI (p.1, fin9 k) r with ⟨h1, h2⟩
  rcases eraseAt_ok v (eraseAt v gI (p.1, fin9 k)) (fin9 k, p.2) r with ⟨h3, h4⟩
  exact ⟨fun a ha => h1 (h3 ha), h4.trans h2⟩

theorem rfcOne_clears (g : Grid) (p : Pos) : ((rfcOne g p) p).candidates = [] := by
  cases hv : (g p).value with
  | none =>
    rw [rfcOne_none hv, Function.update_same]
  | some v =>
    rw [rfcOne_some hv]
    apply List.eq_nil_of_subset_nil
    intro a ha
    have h1 := (gfold_ok (f := eraseAt v) (fun gc b r => eraseAt_ok v gc b r) (blockCellsOf p)
      ((List.range 9).foldl
        (fun gc k => eraseAt v (eraseAt v gc (p.1, fin9 k)) (fin9 k, p.2))
        (Function.update g p { g p with candidates := [] })) p).1 ha
    have h2 := (gfold_ok
      (f := fun gc k => eraseAt v (eraseAt v gc (p.1, fin9 k)) (fin9 k, p.2))
      (fun gc b r => rcStep_ok v p gc b r) (List.range 9)
      (Function.update g p { g p with candidates := [] }) p).1 h1
    rw [Function.update_same] at h2
    exact h2

theorem rfc_clears (g : Grid) (ps : List Pos) :
    ∀ p ∈ ps, ((remove_filled_candidates g ps) p).candidates = [] := by
  intro p hp
  rcases List.append_of_mem hp with ⟨P₁, P₂, hP⟩
  have hsplit : remove_filled_candidates g ps =
      P₂.foldl rfcOne (rfcOne (P₁.foldl rfcOne g) p) := by
    unfold remove_filled_candidates
    rw [hP, List.foldl_append, List.foldl_cons]
  rw [hsplit]
  apply List.eq_nil_of_subset_nil
  intro a ha
  have h1 := (gfold_ok (fun gc b r => rfcOne_ok gc b r) P₂
    (rfcOne (P₁.foldl rfcOne g) p) p).1 ha
  rw [rfcOne_clears (P₁.foldl rfcOne g) p] at h1
  exact h1

theorem rfcOne_erases {gc : Grid} {p : Pos} {v : Nat}
    (hval : (gc p).value = some v) (hnd : ∀ q : Pos, ((gc q).candidates).Nodup) :
    ∀ q : Pos, ((∃ k, k < 9 ∧ (q = (p.1, fin9 k) ∨ q = (fin9 k, p.2))) ∨ q ∈ blockCellsOf p) →
      ((rfcOne gc p) q).value = none → v ∉ ((rfcOne gc p) q).candidates := by
  intro q hq hnone hmem
  rw [rfcOne_some hval] at hnone hmem
  set base := Function.update gc p { gc p with candidates := [] } with hbaseDef
  set step := fun gI k => eraseAt v (eraseAt v gI (p.1, fin9 k)) (fin9 k, p.2) with hstepDef
  set inner := (List.range 9).foldl step base with hinnerDef
  have hndb : ∀ r : Pos, ((base r).candidates).Nodup := clear_nodup hnd
  have hndi : ∀ r : Pos, ((inner r).candidates).Nodup :=
    gfold_nodup (fun gI b hr r => eraseAt_nodup (eraseAt_nodup hr) r) (List.range 9) base hndb
  have houter := gfold_ok (f := eraseAt v) (fun gI b r => eraseAt_ok v gI b r)
    (blockCellsOf p) inner
  rcases hq with ⟨k, hk9, hk⟩ | hqb
  · have hkmem : k ∈ List.range 9 := List.mem_range.2 hk9
    rcases List.append_of_mem hkmem with ⟨R₁, R₂, hR⟩
    set g1 := R₁.foldl step base with hg1Def
    have hsplitI : inner = R₂.foldl step (step g1 k) := by
      rw [hinnerDef, hR, List.foldl_append, List.foldl_cons]
    have hnd1 : ∀ r : Pos, ((g1 r).candidates).Nodup :=
      gfold_nodup (fun gI b hr r => eraseAt_nodup (eraseAt_nodup hr) r) R₁ base hndb
    have hok2 := gfold_ok (f := step) (fun gI b r => rcStep_ok v p gI b r) R₂ (step g1 k)
    have hnoneI : (inner q).value = none := ((houter q).2).symm.trans hnone
    have hnoneS : ((step g1 k) q).value = none := by
      rw [hsplitI] at hnoneI
      exact ((hok2 q).2).symm.trans hnoneI
    have hestb : v ∉ ((step g1 k) q).candidates := by
      rcases hk with rfl | rfl
      · have hv1 : ((eraseAt v g1 (p.1, fin9 k)) (p.1, fin9 k)).value = none :=
          ((eraseAt_ok v (eraseAt v g1 (p.1, fin9 k)) (fin9 k, p.2) (p.1, fin9 k)).2).symm.trans
            hnoneS
        have hrem := eraseAt_removes (hnd1 (p.1, fin9 k)) hv1
        intro hmemS
        exact hrem ((eraseAt_ok v (eraseAt v g1 (p.1, fin9 k)) (fin9 k, p.2) (p.1, fin9 k)).1
          hmemS)
      · intro hmemS
        exact eraseAt_removes (eraseAt_nodup hnd1 (fin9 k, p.2)) hnoneS hmemS
    apply hestb
    have hmemI : v ∈ (inner q).candidates := (houter q).1 hmem
    rw [hsplitI] at hmemI
    exact (hok2 q).1 hmemI
  · rcases List.append_of_mem hqb with ⟨B₁, B₂, hB⟩
    set gB := B₁.foldl (eraseAt v) inner with hgBDef
    have hsplitO : (blockCellsOf p).foldl (eraseAt v) inner =
        B₂.foldl (eraseAt v) (eraseAt v gB q) := by
      rw [hgBDef, hB, List.foldl_append, List.foldl_cons]
    have hndB : ∀ r : Pos, ((gB r).candidates).Nodup :=
      gfold_nodup (fun gI b hr => eraseAt_nodup hr) B₁ inner hndi
    have hokB := gfold_ok (f := eraseAt v) (fun gI b r => eraseAt_ok v gI b r) B₂
      (eraseAt v gB q)
    have hnoneB : ((eraseAt v gB q) q).value = none := by
      rw [hsplitO] at hnone
      exact ((hokB q).2).symm.trans hnone
    apply eraseAt_removes (hndB q) hnoneB
    rw [hsplitO] at hmem
    exact (hokB q).1 hmem

theorem rfc_erased {g : Grid} (ps : List Pos)
    (hnd : ∀ q : Pos, ((g q).candidates).Nodup) :
    ∀ p ∈ ps, ∀ v : Nat, (g p).value = some v →
      ∀ q : Pos, ((∃ k, k < 9 ∧ (q = (p.1, fin9 k) ∨ q = (fin9 k, p.2))) ∨ q ∈ blockCellsOf p) →
        ((remove_filled_candidates g ps) q).value = none →
        v ∉ ((remove_filled_candidates g ps) q).candidates := by
  intro p hp v hval q hq hnone hmem
  rcases List.append_of_mem hp with ⟨P₁, P₂, hP⟩
  have hsplit : remove_filled_candidates g ps =
      P₂.foldl rfcOne (rfcOne (P₁.foldl rfcOne g) p) := by
    unfold remove_filled_candidates
    rw [hP, List.foldl_append, List.foldl_cons]
  have hnd1 : ∀ r : Pos, (((P₁.foldl rfcOne g) r).candidates).Nodup :=
    gfold_nodup (fun gc b hr => rfcOne_nodup hr) P₁ g hnd
  have hval1 : ((P₁.foldl rfcOne g) p).value = some v := by
    rw [(gfold_ok (fun gc b r => rfcOne_ok gc b r) P₁ g p).2]
    exact hval
  have hok2 := gfold_ok (fun gc b r => rfcOne_ok gc b r) P₂ (rfcOne (P₁.foldl rfcOne g) p)
  have hnone2 : ((rfcOne (P₁.foldl rfcOne g) p) q).value = none := by
    rw [hsplit] at hnone
    exact ((hok2 q).2).symm.trans hnone
  rw [hsplit] at hmem
  exact rfcOne_erases hval1 hnd1 q hq hnone2 ((hok2 q).1 hmem)

theorem rfcOne_id {h : Grid} {p : Pos} {v : Nat}
    (hval : (h p).value = some v) (hclear : (h p).candidates = [])
    (hrow : ∀ k, k < 9 → (h (p.1, fin9 k)).value = none → v ∉ (h (p.1, fin9 k)).candidates)
    (hcol : ∀ k, k < 9 → (h (fin9 k, p.2)).value = none → v ∉ (h (fin9 k, p.2)).candidates)
    (hblock : ∀ q ∈ blockCellsOf p, (h q).value = none → v ∉ (h q).candidates) :
    rfcOne h p = h := by
  have hupd : Function.update h p { h p with candidates := [] } = h := by
    rw [cell_clear_eq hclear]
    exact Function.update_eq_self p h
  have herase : ∀ q : Pos, ((h q).value = none → v ∉ (h q).candidates) → eraseAt v h q = h := by
    intro q hq
    unfold eraseAt
    rw [if_neg fun hcon => hq hcon.1 hcon.2]
  rw [rfcOne_some hval, hupd]
  have hIfix : (List.range 9).foldl
      (fun gI k => eraseAt v (eraseAt v gI (p.1, fin9 k)) (fin9 k, p.2)) h = h := by
    apply foldl_fixed
    intro k hk
    have hk9 := List.mem_range.1 hk
    rw [herase (p.1, fin9 k) (hrow k hk9), herase (fin9 k, p.2) (hcol k hk9)]
  rw [hIfix]
  apply foldl_fixed
  intro q hq
  exact herase q (hblock q hq)

/-- C9 (amended): `remove_filled_candidates` is idempotent on grids whose
candidate lists are duplicate-free, for any filled-position set each member
of which holds a value: the second invocation changes nothing.  Without the
duplicate-free premise the claim fails (`C9_counterexample`), since a
duplicated candidate survives the first `list.remove` and is removed again
by the second call. -/
theorem C9_rfc_idempotent (g : Grid) (ps : List Pos)
    (hv : ∀ p ∈ ps, ((g p).value).isSome = true)
    (hnd : ∀ q : Pos, ((g q).candidates).Nodup) :
    remove_filled_candidates (remove_filled_candidates g ps) ps =
      remove_filled_candidates g ps := by
  have hfix : ∀ p ∈ ps, rfcOne (remove_filled_candidates g ps) p =
      remove_filled_candidates g ps := by
    intro p hp
    obtain ⟨v, hvg⟩ := Option.isSome_iff_exists.1 (hv p hp)
    have hvalh : ((remove_filled_candidates g ps) p).value = some v := by
      rw [(rfc_ok g ps p).2]
      exact hvg
    apply rfcOne_id hvalh (rfc_clears g ps p hp)
    · intro k hk9 hn
      exact rfc_erased ps hnd p hp v hvg _ (Or.inl ⟨k, hk9, Or.inl rfl⟩) hn
    · intro k hk9 hn
      exact rfc_erased ps hnd p hp v hvg _ (Or.inl ⟨k, hk9, Or.inr rfl⟩) hn
    · intro q hqb hn
      exact rfc_erased ps hnd p hp v hvg q (Or.inr hqb) hn
  show List.foldl rfcOne (remove_filled_candidates g ps) ps = remove_filled_candidates g ps
  exact foldl_fixed ps hfix

/-- C9 counterexample: cell (0,4) holds the candidate list `[5, 5]`; with the
row peer (0,0) filled with 5, the first propagation removes one occurrence
(leaving `[5]`) and the second removes the other (leaving `[]`): the second
invocation changes the grid. -/
theorem C9_counterexample :
    (rfcGrid ((0 : Fin 9), (0 : Fin 9))).value = some 5 ∧
    ((remove_filled_candidates rfcGrid rfcPs) ((0 : Fin 9), (4 : Fin 9))).candidates = [5] ∧
    ((remove_filled_candidates (remove_filled_candidates rfcGrid rfcPs) rfcPs)
      ((0 : Fin 9), (4 : Fin 9))).candidates = [] :=
  ⟨rfl, by decide, by decide⟩

/-- C9 witness: the amended theorem at a duplicate-free concrete grid. -/
theorem C9_witness :
    (∀ p ∈ rfcPs, ((rfcOkGrid p).value).isSome = true) ∧
    (∀ q : Pos, ((rfcOkGrid q).candidates).Nodup) ∧
    remove_filled_candidates (remove_filled_candidates rfcOkGrid rfcPs) rfcPs =
      remove_filled_candidates rfcOkGrid rfcPs :=
  ⟨by decide, by decide, C9_rfc_idempotent rfcOkGrid rfcPs (by decide) (by decide)⟩

/-! ## C2: behaviour of the orchestrator on a fully stagnant cycle -/

theorem is_valid_allnone {g : Grid} (h : ∀ q : Pos, (g q).value = none)
    {n : Nat} (hn : n ∈ nums1to9) (p : Pos) : is_valid g n p = true := by
  rw [is_valid_iff]
  intro q _
  rw [h q]
  have h1 := (mem_nums1to9.1 hn).1
  simp only [Option.getD_none]
  omega

theorem gcc_aux :
    ∀ (l : List Pos) (gc : Grid),
      (∀ q : Pos, (gc q).value = none) →
      (∀ q : Pos, (gc q).given = false) →
      ∀ q : Pos,
        (l.foldl
          (fun gc p =>
            if (gc p).value = none then
              Function.update gc p
                { gc p with candidates := nums1to9.filter fun n => is_valid gc n p }
            else gc) gc) q =
        if q ∈ l then { value := none, given := false, candidates := nums1to9 } else gc q := by
  intro l
  induction l with
  | nil =>
    intro gc hv hg q
    rw [List.foldl_nil, if_neg (List.not_mem_nil q)]
  | cons p l ih =>
    intro gc hv hg q
    rw [List.foldl_cons]
    have hstep : (if (gc p).value = none then
        Function.update gc p
          { gc p with candidates := nums1to9.filter fun n => is_valid gc n p }
      else gc) =
        Function.update gc p { value := none, given := false, candidates := nums1to9 } := by
      rw [if_pos (hv p)]
      have hfilt : (nums1to9.filter fun n => is_valid gc n p) = nums1to9 :=
        List.filter_eq_self.2 fun n hn => is_valid_allnone hv hn p
      simp only [hfilt, hv, hg]
    rw [hstep]
    set gc' := Function.update gc p { value := none, given := false, candidates := nums1to9 }
      with hgc'
    have hv' : ∀ r : Pos, (gc' r).value = none := by
      intro r
      by_cases hr : r = p
      · subst hr
        rw [hgc', Function.update_same]
      · rw [hgc', Function.update_noteq hr]
        exact hv r
    have hg' : ∀ r : Pos, (gc' r).given = false := by
      intro r
      by_cases hr : r = p
      · subst hr
        rw [hgc', Function.update_same]
      · rw [hgc', Function.update_noteq hr]
        exact hg r
    rw [ih gc' hv' hg' q]
    by_cases hql : q ∈ l
    · rw [if_pos hql, if_pos (List.mem_cons_of_mem p hql)]
    · rw [if_neg hql]
      by_cases hqp : q = p
      · subst hqp
        rw [if_pos (List.mem_cons_self q l), hgc', Function.update_same]
      · rw [if_neg (fun hc => (List.mem_cons.1 hc).elim hqp hql), hgc',
          Function.update_noteq hqp]

theorem gcc_empty : get_cell_candidates emptyGrid = startGrid := by
  funext q
  unfold get_cell_candidates
  rw [gcc_aux allPositions emptyGrid (fun _ => rfl) (fun _ => rfl) q,
    if_pos (mem_allPositions q)]
  rfl

theorem newlyFilled_self (g : Grid) : newlyFilled g g = [] := by
  unfold newlyFilled
  rw [List.filter_eq_nil_iff]
  intro p _
  cases h : (g p).value <;> simp [h]

theorem guidedPost_self (g : Grid) : guidedPost g g = g := by
  unfold guidedPost
  rw [newlyFilled_self]
  rfl

theorem guidedStep_stagnant {g : Grid} {idx : Nat}
    (hb : (stratAt idx g).1 = false) (hg : (stratAt idx g).2 = g)
    (hun : find_empty g ≠ none) :
    guidedStep g idx =
      StepOut.cont g (if strategyList.length ≤ idx + 1 then 0 else idx + 1) := by
  unfold guidedStep
  rw [hb, hg, guidedPost_self, if_neg Bool.false_ne_true]
  by_cases hlen : strategyList.length ≤ idx + 1
  · rw [if_pos hlen, if_neg hun, if_pos hlen]
  · rw [if_neg hlen, if_neg hlen]

theorem guidedRun_succ (n : Nat) (g : Grid) (idx : Nat) :
    guidedRun (n + 1) g idx =
      match guidedStep g idx with
      | StepOut.cont g' idx' => guidedRun n g' idx'
      | out => out := rfl

theorem guidedRun_succ_cont {g g' : Grid} {idx idx' : Nat} (n : Nat)
    (h : guidedStep g idx = StepOut.cont g' idx') :
    guidedRun (n + 1) g idx = guidedRun n g' idx' := by
  rw [guidedRun_succ, h]

/-- C2 (refuted/amended): on a grid on which every strategy of the list
reports no change and returns the grid unchanged, while unresolved cells
remain, the orchestrator never reaches a stagnation terminal state: every
iteration returns control to the caller with the `cont` outcome (the index
wrapping past the end of the list back to 0), so a caller who always
continues cycles forever.  The code has no `Stagnant` signal at all; the
loop only breaks when the grid is complete at the wrap or the caller
declines. -/
theorem C2_guided_cycles (g : Grid)
    (hb : ∀ i, i < strategyList.length → (stratAt i g).1 = false)
    (hg : ∀ i, i < strategyList.length → (stratAt i g).2 = g)
    (hun : find_empty g ≠ none) :
    ∀ (n idx : Nat), idx < strategyList.length →
      ∃ idx', idx' < strategyList.length ∧ guidedRun n g idx = StepOut.cont g idx' := by
  intro n
  induction n with
  | zero => exact fun idx h => ⟨idx, h, rfl⟩
  | succ n ih =>
    intro idx h
    have hstep := guidedStep_stagnant (hb idx h) (hg idx h) hun
    by_cases hlen : strategyList.length ≤ idx + 1
    · rw [if_pos hlen] at hstep
      rw [guidedRun_succ_cont n hstep]
      exact ih 0 (Nat.lt_of_le_of_lt (Nat.zero_le idx) h)
    · rw [if_neg hlen] at hstep
      rw [guidedRun_succ_cont n hstep]
      exact ih (idx + 1) (Nat.lt_of_not_le hlen)

/-- C2 counterexample: the orchestrator's own starting state for the empty
puzzle (`get_cell_candidates` of the all-empty grid) is stagnant with 81
unresolved cells, yet one full cycle through all ten strategies ends in
`StepOut.cont` with the index wrapped to 0 — control simply returns to the
caller's prompt; no stagnation report is ever produced. -/
theorem C2_counterexample :
    get_cell_candidates emptyGrid = startGrid ∧
    find_empty startGrid ≠ none ∧
    guidedRun 10 startGrid 0 = StepOut.cont startGrid 0 :=
  ⟨gcc_empty, by decide, by decide⟩

/-- C2 witness: the amended theorem at the concrete stagnant grid. -/
theorem C2_witness :
    (∀ i, i < strategyList.length → (stratAt i startGrid).1 = false) ∧
    (∀ i, i < strategyList.length → (stratAt i startGrid).2 = startGrid) ∧
    find_empty startGrid ≠ none ∧
    (∀ n idx : Nat, idx < strategyList.length →
      ∃ idx', idx' < strategyList.length ∧
        guidedRun n startGrid idx = StepOut.cont startGrid idx') :=
  ⟨by decide, by decide, by decide,
    C2_guided_cycles startGrid (by decide) (by decide) (by decide)⟩

end Sudoku
